import Mathlib

/-!
Verification of the hybrid Hill-cipher / S-DES / LSB-steganography pipeline
implemented in `script.js` (and its near-duplicate variant in the second
source file).  Text is modelled as `List Char`, pixel buffers as `List Nat`
(one entry per RGBA byte), and fallible operations return
`Except String`.  Every definition mirrors the corresponding JavaScript
function; where the source relies on JS-specific coercions
(e.g. `parseInt` on a single character) the model is stated for the binary
digits the program actually feeds it.
-/

namespace HybridCrypto

/-- Models `parseInt(bit)` on the binary digit characters the program
feeds its bit-string helpers: '1' parses to 1, '0' to 0. -/
def bitOfChar (c : Char) : Nat :=
  if c = '1' then 1 else 0

/-- Models `(n).toString()` for the bit values 0 and 1. -/
def charOfBit (n : Nat) : Char :=
  if n = 1 then '1' else '0'

/-- Decides whether a character is a binary digit. -/
def isBit (c : Char) : Prop := c = '0' ∨ c = '1'

instance : DecidablePred isBit := fun c => by
  unfold isBit; infer_instance

/-- Fuel-driven helper for `natToBin`; the fuel only steers structural
recursion and never runs out when it starts at `n` itself. -/
def natToBinAux : Nat → Nat → List Char
  | _, 0 => []
  | 0, _ + 1 => []
  | fuel + 1, n + 1 => natToBinAux fuel ((n + 1) / 2) ++ [charOfBit ((n + 1) % 2)]

/-- Models `char.charCodeAt(0).toString(2)` for a positive argument:
big-endian binary digits of a natural number. -/
def natToBin (n : Nat) : List Char :=
  natToBinAux n n

/-- `toString(2)` including the zero case. -/
def natToBinStr (n : Nat) : List Char :=
  if n = 0 then ['0'] else natToBin n

/-- Models `String.prototype.padStart(w, c)`. -/
def padStart (w : Nat) (c : Char) (s : List Char) : List Char :=
  List.replicate (w - s.length) c ++ s

/-- Models `String.prototype.padEnd(w, c)`. -/
def padEnd (w : Nat) (c : Char) (s : List Char) : List Char :=
  s ++ List.replicate (w - s.length) c

/-- One character of `textToBinary`: `char.charCodeAt(0).toString(2).padStart(8, '0')`. -/
def charToBits (c : Char) : List Char :=
  padStart 8 '0' (natToBinStr c.toNat)

/-- `textToBinary(text)` from `script.js`. -/
def textToBinary (text : List Char) : List Char :=
  (text.map charToBits).flatten

/-- Fuel-driven helper for `chunk8`; the fuel never runs out when it
starts at the length of the list. -/
def chunk8Aux : Nat → List Char → List (List Char)
  | _, [] => []
  | 0, _ :: _ => []
  | fuel + 1, c :: cs => (c :: cs).take 8 :: chunk8Aux fuel ((c :: cs).drop 8)

/-- Models `binary.match(/.{1,8}/g)`: split into chunks of at most 8
characters, the final chunk possibly shorter. -/
def chunk8 (l : List Char) : List (List Char) :=
  chunk8Aux l.length l

/-- Models `parseInt(chunk, 2)` on a chunk of binary digits. -/
def parseBin (s : List Char) : Nat :=
  s.foldl (fun acc c => 2 * acc + bitOfChar c) 0

/-- `binaryToText(binary)` from `script.js`. -/
def binaryToText (binary : List Char) : List Char :=
  (chunk8 binary).map (fun chunk => Char.ofNat (parseBin chunk))

/-- Fuel-driven helper for `chunk8Pad`; the fuel never runs out when it
starts at the length of the list. -/
def chunk8PadAux : Nat → List Char → List (List Char)
  | _, [] => []
  | 0, _ :: _ => []
  | fuel + 1, c :: cs => padEnd 8 '0' ((c :: cs).take 8) :: chunk8PadAux fuel ((c :: cs).drop 8)

/-- The chunking loop of `stringTo8BitBlocks`: slices of 8, the final slice
right-padded with '0' via `padEnd(8, '0')`. -/
def chunk8Pad (l : List Char) : List (List Char) :=
  chunk8PadAux l.length l

/-- `stringTo8BitBlocks(text)` from `script.js`. -/
def stringTo8BitBlocks (text : List Char) : List (List Char) :=
  chunk8Pad (textToBinary text)

/-- `blocksToString(blocks)` from `script.js`. -/
def blocksToString (blocks : List (List Char)) : List Char :=
  binaryToText blocks.flatten

/-- `mod(n, m)` from `script.js`: `((n % m) + m) % m` with the JavaScript
truncating remainder (`Int.tmod`). -/
def mod (n m : Int) : Int :=
  ((n.tmod m) + m).tmod m

/-- The scanning loop of `modInverse(a, m)`: `for (i = 1; i < m; i++)`
looking for `(a * i) % m === 1`, returning the first hit.  The loop is
modelled as `find?` over the candidate list `[1, ..., m-1]`. -/
def modInvScan (a : Int) (m : Nat) : Option Nat :=
  (List.range' 1 (m - 1)).find? (fun i => (a * i).tmod m == 1)

/-- `modInverse(a, m)` from `script.js`: exhaustive scan over `1..m-1`,
throwing when no inverse exists. -/
def modInverse (a : Int) (m : Nat) : Except String Int :=
  match modInvScan a m with
  | some i => .ok i
  | none => .error "Modular inverse does not exist"

/-- A 2x2 integer key matrix `[[m00, m01], [m10, m11]]`. -/
structure Matrix2 where
  m00 : Int
  m01 : Int
  m10 : Int
  m11 : Int
deriving DecidableEq, Repr

/-- `matrixDeterminant2x2(matrix)` from `script.js`. -/
def matrixDeterminant2x2 (m : Matrix2) : Int :=
  m.m00 * m.m11 - m.m01 * m.m10

/-- `matrixInverse2x2(matrix, 26)` from `script.js`. -/
def matrixInverse2x2 (m : Matrix2) : Except String Matrix2 :=
  match modInverse (mod (matrixDeterminant2x2 m) 26) 26 with
  | .error e => .error e
  | .ok detInv =>
      .ok ⟨mod (m.m11 * detInv) 26, mod (-m.m01 * detInv) 26,
           mod (-m.m10 * detInv) 26, mod (m.m00 * detInv) 26⟩

/-- `validateMatrix2x2(matrix, 26)` from `script.js`: true exactly when the
scan of `modInverse` succeeds on the reduced determinant. -/
def validateMatrix2x2 (m : Matrix2) : Bool :=
  match modInverse (mod (matrixDeterminant2x2 m) 26) 26 with
  | .ok _ => true
  | .error _ => false

/-- The character class stripped by `text.replace(/[^A-Za-z]/g, '')`. -/
def isLetter (c : Char) : Bool :=
  ('A' ≤ c && c ≤ 'Z') || ('a' ≤ c && c ≤ 'z')

/-- `HillCipher.charToNum`. -/
def charToNum (c : Char) : Int :=
  (c.toUpper.toNat : Int) - 65

/-- `HillCipher.numToChar`. -/
def numToChar (num : Int) : Char :=
  Char.ofNat (mod num 26 + 65).toNat

/-- `HillCipher.preprocessText`: strip non-letters, upper-case, pad with
'X' when the length is odd. -/
def preprocessText (text : List Char) : List Char :=
  let processed := (text.filter isLetter).map Char.toUpper
  if processed.length % 2 ≠ 0 then processed ++ ['X'] else processed

/-- The pairwise matrix transformation loop shared by `HillCipher.encrypt`
and `HillCipher.decrypt`. -/
def hillPairs (m : Matrix2) : List Char → List Char
  | c1 :: c2 :: rest =>
      let x1 := charToNum c1
      let x2 := charToNum c2
      numToChar (mod (m.m00 * x1 + m.m01 * x2) 26)
        :: numToChar (mod (m.m10 * x1 + m.m11 * x2) 26)
        :: hillPairs m rest
  | _ => []

/-- Result record of `HillCipher.encrypt`. -/
structure HillEncryptResult where
  plainText : List Char
  originalText : List Char
  originalLength : Nat
  encryptedText : List Char
deriving DecidableEq, Repr

/-- `HillCipher.encrypt(plainText, keyMatrix)` from `script.js`. -/
def hillEncrypt (plainText : List Char) (keyMatrix : Matrix2) :
    Except String HillEncryptResult :=
  if validateMatrix2x2 keyMatrix then
    let originalText := (plainText.filter isLetter).map Char.toUpper
    let processed := preprocessText plainText
    .ok ⟨processed, originalText, originalText.length, hillPairs keyMatrix processed⟩
  else .error "Invalid key matrix: determinant must be coprime with 26"

/-- `HillCipher.decrypt(encryptedText, keyMatrix, originalLength)` from
`script.js`, with `none` standing for the `null` default. -/
def hillDecrypt (encryptedText : List Char) (keyMatrix : Matrix2)
    (originalLength : Option Nat) : Except String (List Char) :=
  if validateMatrix2x2 keyMatrix then
    match matrixInverse2x2 keyMatrix with
    | .error e => .error e
    | .ok inv =>
        let decryptedText := hillPairs inv encryptedText
        match originalLength with
        | some n =>
            if 0 < n ∧ n < decryptedText.length then .ok (decryptedText.take n)
            else .ok decryptedText
        | none => .ok decryptedText
  else .error "Invalid key matrix: determinant must be coprime with 26"

/-! ### S-DES (`class SDES`) -/

/-- Permutation table P10. -/
def P10 : List Nat := [3, 5, 2, 7, 4, 10, 1, 9, 8, 6]

/-- Permutation table P8. -/
def P8 : List Nat := [6, 3, 7, 4, 8, 5, 10, 9]

/-- Initial permutation table. -/
def IPt : List Nat := [2, 6, 3, 1, 4, 8, 5, 7]

/-- Inverse of the initial permutation. -/
def IPinv : List Nat := [4, 1, 3, 5, 7, 2, 8, 6]

/-- Expansion permutation table. -/
def EPt : List Nat := [4, 1, 2, 3, 2, 3, 4, 1]

/-- Permutation table P4. -/
def P4 : List Nat := [2, 4, 3, 1]

/-- S-box S0. -/
def S0 : List (List Nat) := [[1, 0, 3, 2], [3, 2, 1, 0], [0, 2, 1, 3], [3, 1, 3, 2]]

/-- S-box S1. -/
def S1 : List (List Nat) := [[0, 1, 2, 3], [2, 0, 1, 3], [3, 0, 1, 0], [2, 1, 0, 3]]

/-- `SDES.permute(input, table)`: `table.map(pos => input[pos - 1])`.  All
table positions used by the program are in range of its inputs. -/
def permute (input : List Char) (table : List Nat) : List Char :=
  table.map (fun pos => input.getD (pos - 1) '0')

/-- `SDES.leftShift(bits, shifts)`: circular left rotation. -/
def leftShift (bits : List Char) (shifts : Nat) : List Char :=
  bits.drop shifts ++ bits.take shifts

/-- `SDES.generateSubKeys(key)`: throws unless the key has length 10, then
derives (K1, K2) by P10, rotations, and P8. -/
def generateSubKeys (key : List Char) : Except String (List Char × List Char) :=
  if key.length ≠ 10 then .error "Key must be 10 bits long"
  else
    let p10Result := permute key P10
    let left1 := p10Result.take 5
    let right1 := p10Result.drop 5
    let left1Shifted := leftShift left1 1
    let right1Shifted := leftShift right1 1
    let k1 := permute (left1Shifted ++ right1Shifted) P8
    let left2Shifted := leftShift left1Shifted 2
    let right2Shifted := leftShift right1Shifted 2
    let k2 := permute (left2Shifted ++ right2Shifted) P8
    .ok (k1, k2)

/-- `SDES.sBoxLookup(input, sBox)`: row from bits 0 and 3, column from bits
1 and 2, result rendered as two binary digits. -/
def sBoxLookup (input : List Char) (sBox : List (List Nat)) : List Char :=
  let row := 2 * bitOfChar (input.getD 0 '0') + bitOfChar (input.getD 3 '0')
  let col := 2 * bitOfChar (input.getD 1 '0') + bitOfChar (input.getD 2 '0')
  let v := (sBox.getD row []).getD col 0
  [charOfBit (v / 2), charOfBit (v % 2)]

/-- The character-wise XOR used throughout `SDES`:
`a.split('').map((bit, i) => (parseInt(bit) ^ parseInt(b[i])).toString())`. -/
def charXor (a b : Char) : Char :=
  charOfBit (bitOfChar a ^^^ bitOfChar b)

/-- XOR of two bit strings, indexed over the first operand as the source's
`map` is. -/
def xorStrings (a b : List Char) : List Char :=
  (List.range a.length).map (fun i => charXor (a.getD i '0') (b.getD i '0'))

/-- `SDES.fFunction(right, subKey)`. -/
def fFunction (right subKey : List Char) : List Char :=
  let expanded := permute right EPt
  let xored := xorStrings expanded subKey
  let left4 := xored.take 4
  let right4 := xored.drop 4
  permute (sBoxLookup left4 S0 ++ sBoxLookup right4 S1) P4

/-- `SDES.encryptBlock(block, k1, k2)`: IP, two Feistel rounds with no swap
after the second round, then the inverse permutation. -/
def encryptBlock (block k1 k2 : List Char) : Except String (List Char) :=
  if block.length ≠ 8 then .error "Block must be 8 bits long"
  else
    let ipResult := permute block IPt
    let left := ipResult.take 4
    let right := ipResult.drop 4
    let fResult1 := fFunction right k1
    let newLeft := right
    let newRight := xorStrings left fResult1
    let fResult2 := fFunction newRight k2
    let finalLeft := xorStrings newLeft fResult2
    let finalRight := newRight
    .ok (permute (finalLeft ++ finalRight) IPinv)

/-- `SDES.decryptBlock(block, k1, k2)`: encryption with the subkeys swapped. -/
def decryptBlock (block k1 k2 : List Char) : Except String (List Char) :=
  encryptBlock block k2 k1

/-- Result record of `SDES.encrypt`. -/
structure SdesResult where
  input : List (List Char)
  output : List (List Char)
  key : List Char
  k1 : List Char
  k2 : List Char
deriving DecidableEq, Repr

/-- `SDES.encrypt(text, key)` from `script.js`. -/
def sdesEncrypt (text : List Char) (key : List Char) : Except String SdesResult := do
  let blocks := stringTo8BitBlocks text
  let ks ← generateSubKeys key
  let encryptedBlocks ← blocks.mapM (fun block => encryptBlock block ks.1 ks.2)
  .ok ⟨blocks, encryptedBlocks, key, ks.1, ks.2⟩

/-- `SDES.decrypt(blocks, key)` from `script.js`. -/
def sdesDecrypt (blocks : List (List Char)) (key : List Char) :
    Except String (List Char) := do
  let ks ← generateSubKeys key
  let decryptedBlocks ← blocks.mapM (fun block => decryptBlock block ks.1 ks.2)
  .ok (blocksToString decryptedBlocks)

/-! ### LSB steganography (`class LSBSteganography`) -/

/-- The 16-bit end-of-payload sentinel '1111111111111110'. -/
def delimiterBits : List Char :=
  ['1', '1', '1', '1', '1', '1', '1', '1', '1', '1', '1', '1', '1', '1', '1', '0']

/-- One channel write: `(pixelValue & 0xFE) | messageBit`. -/
def store (b : Nat) (c : Char) : Nat :=
  (b &&& 0xFE) ||| bitOfChar c

/-- The embedding loop of `hideMessage`: walk the buffer byte by byte
(`ch` is the global byte index), writing one payload bit into each byte
whose index is not 3 mod 4 (the alpha channel) until the payload is
exhausted. -/
def embedAux : List Nat → List Char → Nat → List Nat
  | [], _, _ => []
  | d, [], _ => d
  | b :: rest, c :: cs, ch =>
      if ch % 4 = 3 then b :: embedAux rest (c :: cs) (ch + 1)
      else store b c :: embedAux rest cs (ch + 1)

/-- Result record of `LSBSteganography.hideMessage` (`script.js` variant);
the PSNR statistic is out of scope of the claims. -/
structure StegoHideResult where
  stegoData : List Nat
  capacity : Nat
  used : Nat
deriving DecidableEq, Repr

/-- `LSBSteganography.hideMessage(imageData, message)` from `script.js`:
the message characters are each re-encoded as 8 bits by `textToBinary`,
the 16-bit delimiter is appended, the total is checked against
`Math.floor((data.length / 4) * 3)` bits, and the payload is written into
the low bits of the R, G, B bytes in stride-4 order. -/
def hideMessage (data : List Nat) (message : List Char) :
    Except String StegoHideResult :=
  let messageBinary := textToBinary message
  let fullMessage := messageBinary ++ delimiterBits
  let maxCapacity := 3 * data.length / 4
  if fullMessage.length > maxCapacity then .error "Image too small"
  else .ok ⟨embedAux data fullMessage 0, maxCapacity, fullMessage.length⟩

/-- `LSBSteganography.hideMessage` from the second source file: the same
embedding, but the payload length is checked against
`data.length / 4` (the pixel count) instead of the 3-bits-per-pixel
capacity. -/
def hideMessagePart000 (data : List Nat) (message : List Char) :
    Except String (List Nat) :=
  let binaryMessage := textToBinary message ++ delimiterBits
  if binaryMessage.length > data.length / 4 then
    .error "Message too large for image capacity"
  else .ok (embedAux data binaryMessage 0)

/-- The R, G, B bytes of an RGBA buffer in stride-4 order. -/
def rgbBytes : List Nat → List Nat
  | r :: g :: b :: _a :: rest => r :: g :: b :: rgbBytes rest
  | l => l

/-- The extraction loop of `extractMessage`: append each channel's low bit
to the accumulator and, once at least 16 bits have accumulated, compare
the last 16 against the delimiter after every appended bit. -/
def extractScan (acc : List Char) : List Nat → Except String (List Char)
  | [] => .error "No hidden message found or delimiter not detected"
  | b :: rest =>
      let acc2 := acc ++ [charOfBit (b &&& 1)]
      if 16 ≤ acc2.length ∧ acc2.drop (acc2.length - 16) = delimiterBits
      then .ok (acc2.take (acc2.length - 16))
      else extractScan acc2 rest

/-- `LSBSteganography.extractMessage(imageData)` from `script.js`. -/
def extractMessage (data : List Nat) : Except String (List Char) :=
  match extractScan [] (rgbBytes data) with
  | .ok bits => .ok (binaryToText bits)
  | .error e => .error e

/-! ### Pipeline orchestration (`hideInImage` / `startDecryption`) -/

/-- The state carried from encryption to decryption: the stego pixel data
plus the key material and original length kept in the global result
records. -/
structure PipelineArtifact where
  stegoData : List Nat
  keyMatrix : Matrix2
  sdesKey : List Char
  originalLength : Nat
deriving DecidableEq, Repr

/-- The encrypt flow: `HillCipher.encrypt`, then `SDES.encrypt` of the
encrypted text, then `hideMessage` applied to the concatenation of the
SDES output blocks (a string of '0'/'1' characters). -/
def encryptPipeline (plainText : List Char) (keyMatrix : Matrix2)
    (sdesKey : List Char) (carrier : List Nat) : Except String PipelineArtifact := do
  let hill ← hillEncrypt plainText keyMatrix
  let sdes ← sdesEncrypt hill.encryptedText sdesKey
  let steg ← hideMessage carrier sdes.output.flatten
  .ok ⟨steg.stegoData, keyMatrix, sdesKey, hill.originalLength⟩

/-- The decrypt flow of `startDecryption`: extract from the stego image,
regroup into 8-character blocks, `SDES.decrypt`, then `HillCipher.decrypt`
with the stored key matrix and original length. -/
def decryptPipeline (art : PipelineArtifact) : Except String (List Char) := do
  let extractedBinary ← extractMessage art.stegoData
  let binaryBlocks := chunk8 extractedBinary
  let sdesDecrypted ← sdesDecrypt binaryBlocks art.sdesKey
  hillDecrypt sdesDecrypted art.keyMatrix (some art.originalLength)

/-- Shorthand turning a string literal into the character list it denotes. -/
def str (s : String) : List Char := s.data

/-- The sequence of low bits the extractor reads from a buffer, as
characters, in stride-4 R, G, B order. -/
def lsbStream (data : List Nat) : List Char :=
  (rgbBytes data).map (fun b => charOfBit (b &&& 1))

/-- Overwrite the low bits of a prefix of a byte list with the given bits;
reference form of the embedding restricted to channel bytes. -/
def writeLSBs : List Nat → List Char → List Nat
  | d, [] => d
  | [], _ => []
  | b :: bs, c :: cs => store b c :: writeLSBs bs cs

/-- Number of R, G, B channel bytes among the byte indices below `i`, when
the walk starts at global byte index `ch`; equivalently, how many payload
bits the embedding loop has consumed before reaching offset `i`. -/
def channelsBefore (ch i : Nat) : Nat :=
  (List.range i).countP (fun j => (ch + j) % 4 ≠ 3)

/-! ### Arithmetic lemmas about the JavaScript remainder model -/

theorem neg_lt_tmod (a : Int) (b : Nat) (hb : 0 < b) : -(b : Int) < a.tmod b := by
  cases a with
  | ofNat k =>
      have h := Int.tmod_nonneg (a := Int.ofNat k) (b : Int) (Int.ofNat_nonneg k)
      omega
  | negSucc k =>
      have h1 : Int.tmod (Int.negSucc k) ((b : Nat) : Int) = -(((k + 1) % b : Nat) : Int) := rfl
      rw [h1]
      have h2 : (k + 1) % b < b := Nat.mod_lt _ hb
      omega

theorem tmod_emod (a : Int) (b : Nat) : (a.tmod b) % (b : Int) = a % b := by
  rw [Int.tmod_def, Int.sub_eq_add_neg, ← Int.mul_neg]
  exact Int.add_mul_emod_self_left a (b : Int) (-(a.tdiv (b : Int)))

/-- The source's double-remainder `mod` agrees with the mathematical
(Euclidean) remainder for a positive modulus. -/
theorem mod_eq_emod (n : Int) (b : Nat) (hb : 0 < b) : mod n b = n % b := by
  unfold mod
  have h2 : 0 ≤ n.tmod b + b := by have := neg_lt_tmod n b hb; omega
  rw [Int.tmod_eq_emod h2 (by omega), Int.add_emod_self, tmod_emod]

theorem mod_nonneg (n : Int) (b : Nat) (hb : 0 < b) : 0 ≤ mod n b := by
  rw [mod_eq_emod n b hb]
  exact Int.emod_nonneg n (by omega)

theorem mod_lt (n : Int) (b : Nat) (hb : 0 < b) : mod n b < b := by
  rw [mod_eq_emod n b hb]
  exact Int.emod_lt_of_pos n (by omega)

/-! ### The determinant scan versus the gcd condition -/

theorem modInvScan_gcd : ∀ r : Nat, r < 26 →
    ((modInvScan (r : Int) 26).isSome = true ↔ Nat.gcd r 26 = 1) := by decide

/-- The matrix is accepted exactly when the reduced determinant is a unit
mod 26. -/
theorem validateMatrix2x2_iff_gcd (M : Matrix2) :
    validateMatrix2x2 M = true ↔ Int.gcd (mod (matrixDeterminant2x2 M) 26) 26 = 1 := by
  have h0 : (0 : Int) ≤ mod (matrixDeterminant2x2 M) 26 := mod_nonneg _ _ (by decide)
  have h26 : mod (matrixDeterminant2x2 M) 26 < 26 := mod_lt _ _ (by decide)
  unfold validateMatrix2x2 modInverse
  generalize hA : mod (matrixDeterminant2x2 M) 26 = a at h0 h26 ⊢
  obtain ⟨r, rfl⟩ : ∃ r : Nat, a = (r : Int) := ⟨a.toNat, (Int.toNat_of_nonneg h0).symm⟩
  have hrlt : r < 26 := by omega
  have hscan := modInvScan_gcd r hrlt
  have hgcd : Int.gcd (r : Int) 26 = Nat.gcd r 26 := by
    simp [Int.gcd]
  rw [hgcd]
  cases hsc : modInvScan (r : Int) 26 with
  | none =>
      rw [hsc] at hscan
      simp at hscan
      simp [hscan]
  | some i =>
      rw [hsc] at hscan
      simp at hscan
      simp [hscan]

theorem validateMatrix2x2_of_inverse {M inv : Matrix2}
    (h : matrixInverse2x2 M = .ok inv) : validateMatrix2x2 M = true := by
  unfold matrixInverse2x2 at h
  unfold validateMatrix2x2
  cases hmi : modInverse (mod (matrixDeterminant2x2 M) 26) 26 with
  | ok d => rfl
  | error e => rw [hmi] at h; exact absurd h (by simp)

theorem inverse_of_validateMatrix2x2 {M : Matrix2}
    (h : validateMatrix2x2 M = true) : ∃ inv, matrixInverse2x2 M = .ok inv := by
  unfold validateMatrix2x2 at h
  unfold matrixInverse2x2
  cases hmi : modInverse (mod (matrixDeterminant2x2 M) 26) 26 with
  | ok d => exact ⟨_, rfl⟩
  | error e => rw [hmi] at h; exact absurd h (by simp)

/-! ### Chunking lemmas -/

theorem chunk8Aux_congr : ∀ (f1 f2 : Nat) (l : List Char),
    l.length ≤ f1 → l.length ≤ f2 → chunk8Aux f1 l = chunk8Aux f2 l := by
  intro f1
  induction f1 with
  | zero =>
      intro f2 l h1 _
      have : l = [] := List.length_eq_zero.mp (Nat.le_zero.mp h1)
      subst this
      cases f2 <;> rfl
  | succ f ih =>
      intro f2 l h1 h2
      cases l with
      | nil => cases f2 <;> rfl
      | cons c cs =>
          cases f2 with
          | zero => simp at h2
          | succ f2' =>
              show (c :: cs).take 8 :: chunk8Aux f ((c :: cs).drop 8)
                  = (c :: cs).take 8 :: chunk8Aux f2' ((c :: cs).drop 8)
              simp only [List.length_cons] at h1 h2
              have hd : ((c :: cs).drop 8).length ≤ f := by
                simp only [List.length_drop, List.length_cons]
                omega
              have hd2 : ((c :: cs).drop 8).length ≤ f2' := by
                simp only [List.length_drop, List.length_cons]
                omega
              rw [ih f2' _ hd hd2]

theorem chunk8_cons (l : List Char) (h : l ≠ []) :
    chunk8 l = l.take 8 :: chunk8 (l.drop 8) := by
  cases l with
  | nil => exact absurd rfl h
  | cons c cs =>
      show chunk8Aux (cs.length + 1) (c :: cs) = _
      show (c :: cs).take 8 :: chunk8Aux cs.length ((c :: cs).drop 8) = _
      rw [chunk8Aux_congr cs.length ((c :: cs).drop 8).length ((c :: cs).drop 8)
        (by simp only [List.length_drop, List.length_cons]; omega) (Nat.le_refl _)]
      rfl

theorem chunk8_append_block (b l : List Char) (hb : b.length = 8) :
    chunk8 (b ++ l) = b :: chunk8 l := by
  have hne : b ++ l ≠ [] := by
    intro h
    have := congrArg List.length h
    simp [hb] at this
  rw [chunk8_cons _ hne]
  congr 1
  · rw [List.take_append_of_le_length (by omega), ← hb, List.take_length]
  · congr 1
    rw [List.drop_append_of_le_length (by omega), ← hb, List.drop_length, List.nil_append]

theorem chunk8_short (l : List Char) (h1 : l ≠ []) (h2 : l.length < 8) :
    chunk8 l = [l] := by
  rw [chunk8_cons l h1, List.take_of_length_le (by omega),
    List.drop_eq_nil_of_le (by omega)]
  rfl

theorem chunk8_flatten : ∀ blocks : List (List Char),
    (∀ b ∈ blocks, b.length = 8) → chunk8 blocks.flatten = blocks := by
  intro blocks
  induction blocks with
  | nil => intro _; rfl
  | cons b bs ih =>
      intro h
      rw [List.flatten_cons, chunk8_append_block b bs.flatten (h b (by simp))]
      rw [ih (fun x hx => h x (by simp [hx]))]

/-- Splitting byte-aligned bits followed by a short trailing chunk. -/
theorem chunk8_append_short : ∀ (n : Nat) (bits r : List Char), bits.length = n →
    bits.length % 8 = 0 → r ≠ [] → r.length < 8 →
    chunk8 (bits ++ r) = chunk8 bits ++ [r] := by
  intro n
  induction n using Nat.strong_induction_on with
  | _ n ih =>
      intro bits r hlen hmod hr1 hr2
      by_cases hnil : bits = []
      · subst hnil
        rw [List.nil_append]
        exact chunk8_short r hr1 hr2
      · have hpos : 0 < bits.length := List.length_pos.mpr hnil
        have h8 : 8 ≤ bits.length := by omega
        have hsplit : bits = bits.take 8 ++ bits.drop 8 := (List.take_append_drop 8 bits).symm
        rw [hsplit, List.append_assoc,
          chunk8_append_block (bits.take 8) _ (by rw [List.length_take]; omega),
          chunk8_append_block (bits.take 8) _ (by rw [List.length_take]; omega),
          ih (bits.drop 8).length (by subst hlen; simp only [List.length_drop]; omega)
            (bits.drop 8) r rfl (by simp only [List.length_drop]; omega) hr1 hr2]
        rfl

/-! ### The Feistel involution -/

theorem bitOfChar_cases (c : Char) : bitOfChar c = 0 ∨ bitOfChar c = 1 := by
  unfold bitOfChar; split <;> simp

theorem charXor_cancel {c : Char} (h : isBit c) (x : Char) :
    charXor (charXor c x) x = c := by
  unfold charXor
  rcases bitOfChar_cases x with hx | hx <;> rw [hx] <;> rcases h with h | h <;>
    subst h <;> decide

theorem xorStrings_four (a0 a1 a2 a3 : Char) (b : List Char) :
    xorStrings [a0, a1, a2, a3] b =
      [charXor a0 (b.getD 0 '0'), charXor a1 (b.getD 1 '0'),
       charXor a2 (b.getD 2 '0'), charXor a3 (b.getD 3 '0')] := rfl

theorem permute_IPinv_concat (a0 a1 a2 a3 b0 b1 b2 b3 : Char) :
    permute ([a0, a1, a2, a3] ++ [b0, b1, b2, b3]) IPinv =
      [a3, a0, a2, b0, b2, a1, b3, b1] := rfl

/-- Unfolding `encryptBlock` on an explicit 8-character block: the initial
permutation splits the block into left half `[c1,c5,c2,c0]` and right half
`[c3,c7,c4,c6]`, the two Feistel rounds produce the final halves, and the
inverse permutation reassembles them. -/
theorem encryptBlock_eight (c0 c1 c2 c3 c4 c5 c6 c7 : Char) (k1 k2 : List Char) :
    encryptBlock [c0, c1, c2, c3, c4, c5, c6, c7] k1 k2 =
      .ok (permute
        (xorStrings [c3, c7, c4, c6]
            (fFunction (xorStrings [c1, c5, c2, c0] (fFunction [c3, c7, c4, c6] k1)) k2)
          ++ xorStrings [c1, c5, c2, c0] (fFunction [c3, c7, c4, c6] k1)) IPinv) := rfl

/-- The two-round Feistel structure inverts itself when the subkeys are
replayed in the opposite order, for every pair of subkeys. -/
theorem involution_core (c0 c1 c2 c3 c4 c5 c6 c7 : Char)
    (h0 : isBit c0) (h1 : isBit c1) (h2 : isBit c2) (h3 : isBit c3)
    (h4 : isBit c4) (h5 : isBit c5) (h6 : isBit c6) (h7 : isBit c7)
    (k1 k2 : List Char) :
    Except.bind (encryptBlock [c0, c1, c2, c3, c4, c5, c6, c7] k1 k2)
      (fun e => decryptBlock e k1 k2) = .ok [c0, c1, c2, c3, c4, c5, c6, c7] := by
  rw [encryptBlock_eight]
  simp only [Except.bind]
  unfold decryptBlock
  simp only [xorStrings_four, permute_IPinv_concat]
  rw [encryptBlock_eight]
  simp only [xorStrings_four, List.getD_cons_zero, List.getD_cons_succ,
    charXor_cancel h0, charXor_cancel h1, charXor_cancel h2, charXor_cancel h3,
    charXor_cancel h4, charXor_cancel h5, charXor_cancel h6, charXor_cancel h7,
    permute_IPinv_concat]

theorem length_eq_eight_dest {b : List Char} (hb : b.length = 8) :
    ∃ c0 c1 c2 c3 c4 c5 c6 c7, b = [c0, c1, c2, c3, c4, c5, c6, c7] := by
  rcases b with _ | ⟨c0, _ | ⟨c1, _ | ⟨c2, _ | ⟨c3, _ | ⟨c4, _ | ⟨c5, _ | ⟨c6,
    _ | ⟨c7, _ | ⟨c8, r⟩⟩⟩⟩⟩⟩⟩⟩⟩ <;>
    first
      | exact ⟨_, _, _, _, _, _, _, _, rfl⟩
      | (exfalso; simp only [List.length_cons, List.length_nil] at hb; omega)

/-! ### Claim C2: Feistel involution -/

/-- C2: for every 8-character binary block and every 10-character binary
key, decrypting the encryption of the block under the derived subkey pair
returns the block. -/
theorem C2_feistel_involution (b k : List Char) (hb : b.length = 8)
    (hbits : ∀ c ∈ b, isBit c) (_hk : k.length = 10) (_hkbits : ∀ c ∈ k, isBit c)
    (k1 k2 : List Char) (_hks : generateSubKeys k = .ok (k1, k2)) :
    Except.bind (encryptBlock b k1 k2) (fun e => decryptBlock e k1 k2) = .ok b := by
  obtain ⟨c0, c1, c2, c3, c4, c5, c6, c7, rfl⟩ := length_eq_eight_dest hb
  exact involution_core c0 c1 c2 c3 c4 c5 c6 c7
    (hbits c0 (by simp)) (hbits c1 (by simp)) (hbits c2 (by simp))
    (hbits c3 (by simp)) (hbits c4 (by simp)) (hbits c5 (by simp))
    (hbits c6 (by simp)) (hbits c7 (by simp)) k1 k2

/-- Witness for C2 at the block 10100101 and the key 1010000010. -/
theorem C2_feistel_involution_witness :
    (str "10100101").length = 8 ∧ (∀ c ∈ str "10100101", isBit c) ∧
    (str "1010000010").length = 10 ∧ (∀ c ∈ str "1010000010", isBit c) ∧
    generateSubKeys (str "1010000010") = .ok (str "10100100", str "01000011") ∧
    Except.bind (encryptBlock (str "10100101") (str "10100100") (str "01000011"))
      (fun e => decryptBlock e (str "10100100") (str "01000011")) =
        .ok (str "10100101") :=
  ⟨by decide, by decide, by decide, by decide, rfl,
   C2_feistel_involution (str "10100101") (str "1010000010") (by decide) (by decide)
     (by decide) (by decide) (str "10100100") (str "01000011") rfl⟩

/-! ### Claim C3: Hill key-matrix validity -/

/-- C3: `HillCipher.encrypt` and `HillCipher.decrypt` succeed exactly when
`gcd(det mod 26, 26) = 1` (the exhaustive scan finds a modular inverse of
the determinant), and otherwise both fail with the invalid-key-matrix
error before any transformation. -/
theorem C3_hill_validity (text : List Char) (M : Matrix2) (ol : Option Nat) :
    (Int.gcd (mod (matrixDeterminant2x2 M) 26) 26 = 1 →
      (hillEncrypt text M).isOk = true ∧ (hillDecrypt text M ol).isOk = true) ∧
    (Int.gcd (mod (matrixDeterminant2x2 M) 26) 26 ≠ 1 →
      hillEncrypt text M = .error "Invalid key matrix: determinant must be coprime with 26" ∧
      hillDecrypt text M ol = .error "Invalid key matrix: determinant must be coprime with 26") := by
  constructor
  · intro hgcd
    have hv : validateMatrix2x2 M = true := (validateMatrix2x2_iff_gcd M).mpr hgcd
    obtain ⟨inv, hinv⟩ := inverse_of_validateMatrix2x2 hv
    refine ⟨by simp [hillEncrypt, hv, Except.isOk, Except.toBool], ?_⟩
    cases ol with
    | none => simp [hillDecrypt, hv, hinv, Except.isOk, Except.toBool]
    | some n =>
        by_cases hc : 0 < n ∧ n < (hillPairs inv text).length
        · simp [hillDecrypt, hv, hinv, hc, Except.isOk, Except.toBool]
        · simp [hillDecrypt, hv, hinv, hc, Except.isOk, Except.toBool]
  · intro hgcd
    have hv : validateMatrix2x2 M = false := by
      cases hb : validateMatrix2x2 M with
      | false => rfl
      | true => exact absurd ((validateMatrix2x2_iff_gcd M).mp hb) hgcd
    simp [hillEncrypt, hillDecrypt, hv]

/-- Witness for C3 at the spec's example matrix `[[3,2],[5,7]]`
(determinant 11, invertible) and at the singular matrix `[[2,4],[6,8]]`. -/
theorem C3_hill_validity_witness :
    (Int.gcd (mod (matrixDeterminant2x2 ⟨3, 2, 5, 7⟩) 26) 26 = 1 ∧
      (hillEncrypt (str "HI") ⟨3, 2, 5, 7⟩).isOk = true) ∧
    (Int.gcd (mod (matrixDeterminant2x2 ⟨2, 4, 6, 8⟩) 26) 26 ≠ 1 ∧
      hillEncrypt (str "HI") ⟨2, 4, 6, 8⟩ =
        .error "Invalid key matrix: determinant must be coprime with 26") :=
  ⟨⟨by decide, ((C3_hill_validity (str "HI") ⟨3, 2, 5, 7⟩ none).1 (by decide)).1⟩,
   ⟨by decide, ((C3_hill_validity (str "HI") ⟨2, 4, 6, 8⟩ none).2 (by decide)).1⟩⟩

/-! ### Claim C4: the concrete S-DES vector -/

/-- C4 counterexample: with key 1010000010 the code encrypts the block
10100101 to 11001010, not to the 00010001 the claim expects. -/
theorem C4_vector_counterexample :
    ¬ (do let ks ← generateSubKeys (str "1010000010")
          encryptBlock (str "10100101") ks.1 ks.2) = Except.ok (str "00010001") := by
  intro h
  have h1 : (do let ks ← generateSubKeys (str "1010000010")
                encryptBlock (str "10100101") ks.1 ks.2) = Except.ok (str "11001010") := rfl
  have h2 : str "11001010" = str "00010001" := Except.ok.inj (h1.symm.trans h)
  exact absurd h2 (by decide)

/-- C4 amended: the key 1010000010 yields the standard subkeys
K1 = 10100100 and K2 = 01000011, and the code encrypts the block 10100101
to 11001010. -/
theorem C4_vector :
    generateSubKeys (str "1010000010") = .ok (str "10100100", str "01000011") ∧
    (do let ks ← generateSubKeys (str "1010000010")
        encryptBlock (str "10100101") ks.1 ks.2) = Except.ok (str "11001010") :=
  ⟨rfl, rfl⟩

/-! ### Claim C5: embedding capacity -/

/-- C5: the `script.js` embedder accepts a payload exactly when the
payload plus the 16-bit delimiter fits in `floor(pixelCount * 3)` bits,
while the variant in the second source file rejects a payload that uses
exactly the full capacity: with 8 RGBA pixels (capacity 24 bits) and a
one-character message (payload plus delimiter exactly 24 bits) it throws,
contradicting its own 3-bits-per-pixel capacity accounting. -/
theorem C5_capacity :
    (∀ (data : List Nat) (message : List Char),
      ((hideMessage data message).isOk = true ↔
        (textToBinary message).length + 16 ≤ 3 * data.length / 4)) ∧
    hideMessagePart000 (List.replicate 32 0) (str "A") =
      .error "Message too large for image capacity" ∧
    (textToBinary (str "A")).length + 16 = 24 ∧
    3 * (List.replicate 32 (0 : Nat)).length / 4 = 24 ∧
    (hideMessage (List.replicate 32 0) (str "A")).isOk = true := by
  refine ⟨?_, rfl, rfl, rfl, rfl⟩
  intro data message
  have hlen : (textToBinary message ++ delimiterBits).length =
      (textToBinary message).length + 16 := by
    simp [delimiterBits]
  unfold hideMessage
  by_cases h : (textToBinary message ++ delimiterBits).length > 3 * data.length / 4
  · simp only [h, if_true]
    simp only [Except.isOk, Except.toBool]
    constructor
    · intro hfalse; cases hfalse
    · intro hle; omega
  · simp only [h, if_false]
    simp only [Except.isOk, Except.toBool]
    constructor
    · intro _; omega
    · intro _; trivial

/-! ### Claim C6: key-length validation -/

/-- C6 counterexample: a 10-character key made of letters, not binary
digits, is accepted by `generateSubKeys` rather than rejected. -/
theorem C6_nonbinary_key_accepted :
    generateSubKeys (str "ABCDEFGHIJ") = .ok (str "AGIDHCJF", str "HCFEJBIA") := rfl

/-- C6 amended: `generateSubKeys` fails with the key-length error exactly
when the key length differs from 10; the characters of a length-10 key are
never inspected, so every 10-character string is accepted. -/
theorem C6_key_length (key : List Char) :
    (key.length = 10 ∧ (generateSubKeys key).isOk = true) ∨
    (key.length ≠ 10 ∧ generateSubKeys key = .error "Key must be 10 bits long") := by
  by_cases h : key.length = 10
  · exact .inl ⟨h, by simp [generateSubKeys, h, Except.isOk, Except.toBool]⟩
  · exact .inr ⟨h, by simp [generateSubKeys, h]⟩

/-! ### Claim C8: non-byte-aligned input to binaryToText -/

/-- C8 counterexample: a single-bit input is not rejected; the trailing
chunk is decoded as the character with code `parseInt("1", 2) = 1`. -/
theorem C8_short_chunk_decoded : binaryToText (str "1") = [Char.ofNat 1] := rfl

/-- C8 amended: `binaryToText` never fails; on input whose length is not a
multiple of 8 it decodes the short trailing chunk as one additional
character parsed from its bits. -/
theorem C8_trailing_chunk (bits r : List Char) (hb : bits.length % 8 = 0)
    (hr1 : r ≠ []) (hr2 : r.length < 8) :
    binaryToText (bits ++ r) = binaryToText bits ++ [Char.ofNat (parseBin r)] := by
  unfold binaryToText
  rw [chunk8_append_short bits.length bits r rfl hb hr1 hr2, List.map_append]
  rfl

/-- Witness for C8 on the 9-bit input 00110001 followed by 1. -/
theorem C8_trailing_chunk_witness :
    (str "00110001").length % 8 = 0 ∧
    binaryToText (str "00110001" ++ str "1") =
      binaryToText (str "00110001") ++ [Char.ofNat (parseBin (str "1"))] :=
  ⟨by decide,
   C8_trailing_chunk (str "00110001") (str "1") (by decide) (by decide) (by decide)⟩

/-! ### Claim C10: the decrypt truncation edge case -/

/-- C10: `HillCipher.decrypt` truncates to `originalLength` only when that
length is strictly between 0 and the decoded length; when it is absent,
zero, or at least the decoded length, the decoded text is returned whole,
including any trailing padding. -/
theorem C10_truncation (text : List Char) (M inv : Matrix2) (n : Nat)
    (hinv : matrixInverse2x2 M = .ok inv) :
    hillDecrypt text M none = .ok (hillPairs inv text) ∧
    (0 < n → n < (hillPairs inv text).length →
      hillDecrypt text M (some n) = .ok ((hillPairs inv text).take n)) ∧
    ((n = 0 ∨ (hillPairs inv text).length ≤ n) →
      hillDecrypt text M (some n) = .ok (hillPairs inv text)) := by
  have hv : validateMatrix2x2 M = true := validateMatrix2x2_of_inverse hinv
  refine ⟨by simp [hillDecrypt, hv, hinv], ?_, ?_⟩
  · intro h1 h2
    simp [hillDecrypt, hv, hinv, h1, h2]
  · intro h
    have hc : ¬ (0 < n ∧ n < (hillPairs inv text).length) := by omega
    simp only [hillDecrypt, hv, if_true, hinv]
    rw [if_neg hc]

/-- Witness for C10 with the matrix `[[3,2],[5,7]]`, its inverse, the
four-letter ciphertext CHQT and original length 3. -/
theorem C10_truncation_witness :
    matrixInverse2x2 ⟨3, 2, 5, 7⟩ = .ok ⟨3, 14, 9, 5⟩ ∧
    hillDecrypt (str "CHQT") ⟨3, 2, 5, 7⟩ none = .ok (hillPairs ⟨3, 14, 9, 5⟩ (str "CHQT")) ∧
    hillDecrypt (str "CHQT") ⟨3, 2, 5, 7⟩ (some 3) =
      .ok ((hillPairs ⟨3, 14, 9, 5⟩ (str "CHQT")).take 3) := by
  have h := C10_truncation (str "CHQT") ⟨3, 2, 5, 7⟩ ⟨3, 14, 9, 5⟩ 3 rfl
  exact ⟨rfl, h.1, h.2.1 (by decide) (by decide)⟩

/-! ### Embedding frame lemmas -/

theorem channelsBefore_zero (ch : Nat) : channelsBefore ch 0 = 0 := rfl

theorem channelsBefore_succ_head (ch i : Nat) :
    channelsBefore ch (i + 1) =
      (if ch % 4 = 3 then 0 else 1) + channelsBefore (ch + 1) i := by
  unfold channelsBefore
  rw [List.range_succ_eq_map, List.countP_cons, List.countP_map]
  have hfun : (fun j => decide ((ch + j) % 4 ≠ 3)) ∘ Nat.succ
      = fun j => decide ((ch + 1 + j) % 4 ≠ 3) := by
    funext j
    simp only [Function.comp]
    congr 1
    congr 1
    omega
  rw [hfun]
  by_cases h : ch % 4 = 3
  · simp [h]
  · simp [h]
    omega

theorem channelsBefore_succ_last (ch i : Nat) :
    channelsBefore ch (i + 1) =
      channelsBefore ch i + (if (ch + i) % 4 = 3 then 0 else 1) := by
  unfold channelsBefore
  rw [List.range_succ, List.countP_append]
  by_cases h : (ch + i) % 4 = 3 <;> simp [List.countP_cons, h]

theorem channelsBefore_zero_formula (i : Nat) : channelsBefore 0 i = i - i / 4 := by
  induction i with
  | zero => rfl
  | succ i ih =>
      rw [channelsBefore_succ_last, ih, Nat.zero_add]
      by_cases h : i % 4 = 3
      · rw [if_pos h]; omega
      · rw [if_neg h]; omega

theorem embedAux_length : ∀ (d : List Nat) (bits : List Char) (ch : Nat),
    (embedAux d bits ch).length = d.length := by
  intro d
  induction d with
  | nil => intro bits ch; cases bits <;> rfl
  | cons b rest ih =>
      intro bits ch
      cases bits with
      | nil => rfl
      | cons c cs =>
          unfold embedAux
          by_cases h : ch % 4 = 3 <;> simp [h, ih]

theorem embedAux_getD : ∀ (d : List Nat) (bits : List Char) (ch i : Nat),
    i < d.length →
    (embedAux d bits ch).getD i 0 =
      if (ch + i) % 4 = 3 then d.getD i 0
      else if channelsBefore ch i < bits.length
        then store (d.getD i 0) (bits.getD (channelsBefore ch i) '0')
        else d.getD i 0 := by
  intro d
  induction d with
  | nil => intro bits ch i hi; simp at hi
  | cons b rest ih =>
      intro bits ch i hi
      cases bits with
      | nil =>
          show (b :: rest).getD i 0 = _
          simp only [List.length_nil]
          have : ¬ channelsBefore ch i < 0 := by omega
          rw [if_neg this]
          split <;> rfl
      | cons c cs =>
          unfold embedAux
          by_cases hch : ch % 4 = 3
          · rw [if_pos hch]
            cases i with
            | zero =>
                simp only [List.getD_cons_zero, Nat.add_zero]
                rw [if_pos hch]
            | succ i' =>
                simp only [List.getD_cons_succ]
                rw [ih (c :: cs) (ch + 1) i' (by simp at hi; omega)]
                have he : (ch + 1 + i') % 4 = (ch + (i' + 1)) % 4 := by
                  congr 1
                  omega
                rw [channelsBefore_succ_head, if_pos hch, Nat.zero_add, he]
          · rw [if_neg hch]
            cases i with
            | zero =>
                have h1 : ¬ (ch + 0) % 4 = 3 := by omega
                have h2 : channelsBefore ch 0 < (c :: cs).length := by
                  rw [channelsBefore_zero]
                  simp
                simp only [List.getD_cons_zero]
                rw [if_neg h1, if_pos h2]
                rfl
            | succ i' =>
                simp only [List.getD_cons_succ]
                rw [ih cs (ch + 1) i' (by simp at hi; omega)]
                have he : (ch + 1 + i') % 4 = (ch + (i' + 1)) % 4 := by
                  congr 1
                  omega
                rw [channelsBefore_succ_head, if_neg hch, he]
                have hlen : (c :: cs).length = cs.length + 1 := rfl
                rw [hlen]
                by_cases hh : (ch + (i' + 1)) % 4 = 3
                · rw [if_pos hh, if_pos hh]
                · rw [if_neg hh, if_neg hh]
                  by_cases hlt : channelsBefore (ch + 1) i' < cs.length
                  · rw [if_pos hlt,
                      if_pos (show 1 + channelsBefore (ch + 1) i' < cs.length + 1 by omega)]
                    rw [Nat.add_comm 1 (channelsBefore (ch + 1) i'), List.getD_cons_succ]
                  · rw [if_neg hlt,
                      if_neg (show ¬ 1 + channelsBefore (ch + 1) i' < cs.length + 1 by omega)]


set_option maxRecDepth 4096 in
theorem store_formula : ∀ b : Nat, b < 256 → ∀ t : Nat, t < 2 →
    ((b &&& 254) ||| t) = 2 * (b / 2) + t := by decide

theorem store_eq (b : Nat) (hb : b < 256) (c : Char) :
    store b c = 2 * (b / 2) + bitOfChar c := by
  have ht : bitOfChar c < 2 := by rcases bitOfChar_cases c with h | h <;> omega
  exact store_formula b hb (bitOfChar c) ht

theorem C7_embed_frame (data : List Nat) (message : List Char) (res : StegoHideResult)
    (hbytes : ∀ b ∈ data, b < 256)
    (hok : hideMessage data message = .ok res) :
    res.stegoData.length = data.length ∧
    ∀ i, i < data.length →
      (i % 4 = 3 → res.stegoData.getD i 0 = data.getD i 0) ∧
      ((textToBinary message).length + 16 ≤ i - i / 4 →
        res.stegoData.getD i 0 = data.getD i 0) ∧
      res.stegoData.getD i 0 / 2 = data.getD i 0 / 2 ∧
      (res.stegoData.getD i 0 ≠ data.getD i 0 →
        (res.stegoData.getD i 0 = data.getD i 0 + 1 ∨
         data.getD i 0 = res.stegoData.getD i 0 + 1)) := by
  unfold hideMessage at hok
  by_cases hcap : (textToBinary message ++ delimiterBits).length > 3 * data.length / 4
  · rw [if_pos hcap] at hok
    cases hok
  · rw [if_neg hcap] at hok
    obtain ⟨sd, cap, used⟩ := res
    cases Except.ok.inj hok
    dsimp only
    have hfm : (textToBinary message ++ delimiterBits).length =
        (textToBinary message).length + 16 := by simp [delimiterBits]
    constructor
    · exact embedAux_length data _ 0
    · intro i hi
      have hbyte : data.getD i 0 < 256 := by
        have : data.getD i 0 = data[i] := List.getD_eq_getElem data 0 hi
        rw [this]
        exact hbytes _ (List.getElem_mem hi)
      have hchar := embedAux_getD data (textToBinary message ++ delimiterBits) 0 i hi
      rw [hchar, Nat.zero_add, channelsBefore_zero_formula]
      refine ⟨?_, ?_, ?_, ?_⟩
      · intro h3
        rw [if_pos h3]
      · intro hle
        by_cases h3 : i % 4 = 3
        · rw [if_pos h3]
        · rw [if_neg h3, if_neg (by omega)]
      · by_cases h3 : i % 4 = 3
        · rw [if_pos h3]
        · rw [if_neg h3]
          by_cases hlt : i - i / 4 < (textToBinary message ++ delimiterBits).length
          · rw [if_pos hlt, store_eq _ hbyte]
            rcases bitOfChar_cases
              ((textToBinary message ++ delimiterBits).getD (i - i / 4) '0') with
              hbit | hbit <;> rw [hbit] <;> omega
          · rw [if_neg hlt]
      · by_cases h3 : i % 4 = 3
        · rw [if_pos h3]
          intro hne
          exact absurd rfl hne
        · rw [if_neg h3]
          by_cases hlt : i - i / 4 < (textToBinary message ++ delimiterBits).length
          · rw [if_pos hlt, store_eq _ hbyte]
            intro _
            rcases bitOfChar_cases ((textToBinary message ++ delimiterBits).getD (i - i / 4) '0') with
              hbit | hbit <;> rw [hbit] <;> omega
          · rw [if_neg hlt]
            intro hne
            exact absurd rfl hne


theorem C7_embed_frame_witness :
    (∀ b ∈ List.replicate 24 (7 : Nat), b < 256) ∧
    hideMessage (List.replicate 24 7) [] =
      .ok ⟨embedAux (List.replicate 24 7) delimiterBits 0, 18, 16⟩ ∧
    ((StegoHideResult.mk (embedAux (List.replicate 24 7) delimiterBits 0) 18 16).stegoData.length
        = (List.replicate 24 (7 : Nat)).length ∧
      ∀ i, i < (List.replicate 24 (7 : Nat)).length →
        (i % 4 = 3 →
          (StegoHideResult.mk (embedAux (List.replicate 24 7) delimiterBits 0) 18 16).stegoData.getD i 0
            = (List.replicate 24 (7 : Nat)).getD i 0) ∧
        ((textToBinary ([] : List Char)).length + 16 ≤ i - i / 4 →
          (StegoHideResult.mk (embedAux (List.replicate 24 7) delimiterBits 0) 18 16).stegoData.getD i 0
            = (List.replicate 24 (7 : Nat)).getD i 0) ∧
        (StegoHideResult.mk (embedAux (List.replicate 24 7) delimiterBits 0) 18 16).stegoData.getD i 0 / 2
          = (List.replicate 24 (7 : Nat)).getD i 0 / 2 ∧
        ((StegoHideResult.mk (embedAux (List.replicate 24 7) delimiterBits 0) 18 16).stegoData.getD i 0
            ≠ (List.replicate 24 (7 : Nat)).getD i 0 →
          ((StegoHideResult.mk (embedAux (List.replicate 24 7) delimiterBits 0) 18 16).stegoData.getD i 0
              = (List.replicate 24 (7 : Nat)).getD i 0 + 1 ∨
           (List.replicate 24 (7 : Nat)).getD i 0
              = (StegoHideResult.mk (embedAux (List.replicate 24 7) delimiterBits 0) 18 16).stegoData.getD i 0 + 1))) :=
  ⟨by decide, rfl,
   C7_embed_frame (List.replicate 24 7) []
     ⟨embedAux (List.replicate 24 7) delimiterBits 0, 18, 16⟩ (by decide) rfl⟩


/-! ### Extraction scan lemmas and claim C9 -/

theorem extractScan_error : ∀ (l : List Nat) (acc : List Char),
    (∀ j, 1 ≤ j → j ≤ l.length → 16 ≤ acc.length + j →
      (acc ++ (l.take j).map (fun b => charOfBit (b &&& 1))).drop (acc.length + j - 16)
        ≠ delimiterBits) →
    extractScan acc l = .error "No hidden message found or delimiter not detected" := by
  intro l
  induction l with
  | nil => intro acc _; rfl
  | cons b rest ih =>
      intro acc h
      show (if 16 ≤ (acc ++ [charOfBit (b &&& 1)]).length ∧
            (acc ++ [charOfBit (b &&& 1)]).drop ((acc ++ [charOfBit (b &&& 1)]).length - 16)
              = delimiterBits
          then Except.ok ((acc ++ [charOfBit (b &&& 1)]).take
            ((acc ++ [charOfBit (b &&& 1)]).length - 16))
          else extractScan (acc ++ [charOfBit (b &&& 1)]) rest) = _
      have hlen : (acc ++ [charOfBit (b &&& 1)]).length = acc.length + 1 := by simp
      have hcond : ¬ (16 ≤ (acc ++ [charOfBit (b &&& 1)]).length ∧
          (acc ++ [charOfBit (b &&& 1)]).drop ((acc ++ [charOfBit (b &&& 1)]).length - 16)
            = delimiterBits) := by
        rw [hlen]
        rintro ⟨h16, hdel⟩
        exact h 1 (Nat.le_refl 1) (by simp) (by omega) hdel
      rw [if_neg hcond]
      apply ih
      intro j hj1 hj2 hj16
      have := h (j + 1) (by omega) (by simp; omega) (by rw [hlen] at hj16; omega)
      rw [hlen]
      have harr : acc ++ [charOfBit (b &&& 1)] ++ (rest.take j).map (fun b => charOfBit (b &&& 1))
          = acc ++ ((b :: rest).take (j + 1)).map (fun b => charOfBit (b &&& 1)) := by
        rw [List.append_assoc]
        rfl
      rw [harr]
      have hidx : acc.length + 1 + j - 16 = acc.length + (j + 1) - 16 := by omega
      rw [hidx]
      exact this

theorem extractScan_ok : ∀ (l : List Nat) (acc : List Char) (m : Nat),
    1 ≤ m → m ≤ l.length → 16 ≤ acc.length + m →
    (acc ++ (l.take m).map (fun b => charOfBit (b &&& 1))).drop (acc.length + m - 16)
      = delimiterBits →
    (∀ j, 1 ≤ j → j < m → 16 ≤ acc.length + j →
      (acc ++ (l.take j).map (fun b => charOfBit (b &&& 1))).drop (acc.length + j - 16)
        ≠ delimiterBits) →
    extractScan acc l =
      .ok ((acc ++ (l.take m).map (fun b => charOfBit (b &&& 1))).take (acc.length + m - 16)) := by
  intro l
  induction l with
  | nil =>
      intro acc m hm1 hm2 _ _ _
      simp at hm2
      omega
  | cons b rest ih =>
      intro acc m hm1 hm2 h16 hmatch hnomatch
      show (if 16 ≤ (acc ++ [charOfBit (b &&& 1)]).length ∧
            (acc ++ [charOfBit (b &&& 1)]).drop ((acc ++ [charOfBit (b &&& 1)]).length - 16)
              = delimiterBits
          then Except.ok ((acc ++ [charOfBit (b &&& 1)]).take
            ((acc ++ [charOfBit (b &&& 1)]).length - 16))
          else extractScan (acc ++ [charOfBit (b &&& 1)]) rest) = _
      have hlen : (acc ++ [charOfBit (b &&& 1)]).length = acc.length + 1 := by simp
      cases m with
      | zero => omega
      | succ m' =>
        cases m' with
        | zero =>
            have harr : acc ++ [charOfBit (b &&& 1)]
                = acc ++ ((b :: rest).take 1).map (fun b => charOfBit (b &&& 1)) := rfl
            have hcond : 16 ≤ (acc ++ [charOfBit (b &&& 1)]).length ∧
                (acc ++ [charOfBit (b &&& 1)]).drop ((acc ++ [charOfBit (b &&& 1)]).length - 16)
                  = delimiterBits := by
              constructor
              · rw [hlen]; omega
              · rw [hlen, harr]
                have hidx : acc.length + 1 - 16 = acc.length + 1 - 16 := rfl
                exact hmatch
            rw [if_pos hcond, hlen, harr]
        | succ m'' =>
            have hcond : ¬ (16 ≤ (acc ++ [charOfBit (b &&& 1)]).length ∧
                (acc ++ [charOfBit (b &&& 1)]).drop ((acc ++ [charOfBit (b &&& 1)]).length - 16)
                  = delimiterBits) := by
              rw [hlen]
              rintro ⟨hc16, hcdel⟩
              exact hnomatch 1 (Nat.le_refl 1) (by omega) (by omega) hcdel
            rw [if_neg hcond]
            have harr : ∀ j : Nat,
                acc ++ [charOfBit (b &&& 1)] ++ (rest.take j).map (fun b => charOfBit (b &&& 1))
                  = acc ++ ((b :: rest).take (j + 1)).map (fun b => charOfBit (b &&& 1)) := by
              intro j
              rw [List.append_assoc]
              rfl
            have hres := ih (acc ++ [charOfBit (b &&& 1)]) (m'' + 1)
              (by omega) (by simp at hm2 ⊢; omega)
              (by rw [hlen]; omega)
              (by rw [hlen, harr m''.succ]
                  have hidx : acc.length + 1 + (m'' + 1) - 16 = acc.length + (m'' + 1 + 1) - 16 := by omega
                  rw [hidx]
                  exact hmatch)
              (by intro j hj1 hj2 hj16
                  rw [hlen, harr j]
                  have hidx : acc.length + 1 + j - 16 = acc.length + (j + 1) - 16 := by omega
                  rw [hidx]
                  exact hnomatch (j + 1) (by omega) (by omega) (by rw [hlen] at hj16; omega))
            rw [hres, hlen, harr m''.succ]
            have hidx : acc.length + 1 + (m'' + 1) - 16 = acc.length + (m'' + 1 + 1) - 16 := by omega
            rw [hidx]


/-- C9: when no prefix of the least-significant-bit stream of the R, G, B
channels ends with the 16-bit delimiter, extraction exhausts the buffer and
fails with the delimiter-not-found error. -/
theorem C9_delimiter_absent (data : List Nat) (_h4 : data.length % 4 = 0)
    (habsent : ∀ t, 16 ≤ t → t ≤ (lsbStream data).length →
      ((lsbStream data).take t).drop (t - 16) ≠ delimiterBits) :
    extractMessage data = .error "No hidden message found or delimiter not detected" := by
  unfold extractMessage
  rw [extractScan_error (rgbBytes data) []]
  intro j hj1 hj2 hj16
  have h1 : ((rgbBytes data).take j).map (fun b => charOfBit (b &&& 1))
      = (lsbStream data).take j := by
    unfold lsbStream
    rw [List.map_take]
  rw [List.nil_append, h1]
  have h2 : (List.length ([] : List Char)) + j - 16 = j - 16 := by simp
  rw [h2]
  exact habsent j (by simpa using hj16) (by unfold lsbStream; simpa using hj2)

/-- Witness for C9 on an all-zero 32-byte buffer, whose 24-bit LSB stream
never matches the delimiter. -/
theorem C9_delimiter_absent_witness :
    (List.replicate 32 (0 : Nat)).length % 4 = 0 ∧
    extractMessage (List.replicate 32 0) =
      .error "No hidden message found or delimiter not detected" := by
  refine ⟨by decide, ?_⟩
  apply C9_delimiter_absent (List.replicate 32 0) (by decide)
  intro t ht1 ht2
  have hls : lsbStream (List.replicate 32 0) = List.replicate 24 '0' := rfl
  rw [hls] at ht2 ⊢
  simp only [List.length_replicate] at ht2
  interval_cases t <;> decide


end HybridCrypto
namespace HybridCrypto

theorem letter_toUpper {c : Char} (h : isLetter c = true) :
    ∃ k, k < 26 ∧ Char.toUpper c = Char.ofNat (65 + k) := by
  unfold isLetter at h
  have hbounds : (65 ≤ c.toNat ∧ c.toNat ≤ 90) ∨ (97 ≤ c.toNat ∧ c.toNat ≤ 122) := by
    rcases (Bool.or_eq_true _ _).mp h with h' | h' <;>
      rcases (Bool.and_eq_true _ _).mp h' with ⟨h1, h2⟩
    · exact .inl ⟨UInt32.le_toNat_of_le (by decide) (Char.le_def.mp (of_decide_eq_true h1)),
        UInt32.toNat_le_of_le (by decide) (Char.le_def.mp (of_decide_eq_true h2))⟩
    · exact .inr ⟨UInt32.le_toNat_of_le (by decide) (Char.le_def.mp (of_decide_eq_true h1)),
        UInt32.toNat_le_of_le (by decide) (Char.le_def.mp (of_decide_eq_true h2))⟩
  rcases hbounds with ⟨h1, h2⟩ | ⟨h1, h2⟩
  · refine ⟨c.toNat - 65, by omega, ?_⟩
    unfold Char.toUpper
    rw [if_neg (by omega)]
    have : 65 + (c.toNat - 65) = c.toNat := by omega
    rw [this, Char.ofNat_toNat]
  · refine ⟨c.toNat - 97, by omega, ?_⟩
    unfold Char.toUpper
    rw [if_pos (by omega)]
    have : 65 + (c.toNat - 97) = c.toNat - 32 := by omega
    rw [this]

theorem az_charToNum : ∀ k : Nat, k < 26 →
    charToNum (Char.ofNat (65 + k)) = (k : Int) ∧
    numToChar (k : Int) = Char.ofNat (65 + k) ∧
    (Char.ofNat (65 + k)).toNat = 65 + k := by decide

theorem mod26_eq_emod (n : Int) : mod n 26 = n % 26 := by
  have h := mod_eq_emod n 26 (by decide)
  simpa using h

theorem mod_idem (y : Int) : mod (mod y 26) 26 = mod y 26 := by
  rw [mod26_eq_emod, mod26_eq_emod, Int.emod_emod_of_dvd y (dvd_refl 26)]

theorem mod_modEq (y : Int) : Int.ModEq 26 (mod y 26) y := by
  show mod y 26 % 26 = y % 26
  rw [mod26_eq_emod]
  exact Int.emod_emod_of_dvd y (dvd_refl 26)

theorem numToChar_form (v : Int) :
    ∃ k, k < 26 ∧ numToChar v = Char.ofNat (65 + k) ∧ (k : Int) = mod v 26 := by
  have h0 : 0 ≤ mod v 26 := mod_nonneg _ _ (by decide)
  have h26 : mod v 26 < 26 := mod_lt _ _ (by decide)
  refine ⟨(mod v 26).toNat, by omega, ?_, by omega⟩
  unfold numToChar
  congr 1
  omega

theorem modInverse_modEq {a : Int} {dInv : Int} (ha : 0 ≤ a)
    (h : modInverse a 26 = .ok dInv) : Int.ModEq 26 (a * dInv) 1 := by
  unfold modInverse at h
  cases hsc : modInvScan a 26 with
  | none => rw [hsc] at h; cases h
  | some i =>
      rw [hsc] at h
      have hi : (dInv : Int) = (i : Int) := by cases h; rfl
      have hp := List.find?_some hsc
      have hval : (a * (i : Int)).tmod 26 = 1 := by simpa using hp
      show (a * dInv) % 26 = 1 % 26
      rw [hi]
      have hnn : 0 ≤ a * (i : Int) := mul_nonneg ha (Int.natCast_nonneg i)
      rw [← Int.tmod_eq_emod hnn (by decide), hval]
      decide

theorem matrixInverse2x2_spec {M inv : Matrix2} (h : matrixInverse2x2 M = .ok inv) :
    ∃ dInv : Int, Int.ModEq 26 (matrixDeterminant2x2 M * dInv) 1 ∧
      inv = ⟨mod (M.m11 * dInv) 26, mod (-M.m01 * dInv) 26,
             mod (-M.m10 * dInv) 26, mod (M.m00 * dInv) 26⟩ := by
  unfold matrixInverse2x2 at h
  cases hmi : modInverse (mod (matrixDeterminant2x2 M) 26) 26 with
  | error e => rw [hmi] at h; cases h
  | ok d =>
      rw [hmi] at h
      refine ⟨d, ?_, (Except.ok.inj h).symm⟩
      have h1 : Int.ModEq 26 (mod (matrixDeterminant2x2 M) 26 * d) 1 :=
        modInverse_modEq (mod_nonneg _ _ (by decide)) hmi
      have h2 : Int.ModEq 26 (matrixDeterminant2x2 M * d) (mod (matrixDeterminant2x2 M) 26 * d) :=
        Int.ModEq.mul_right d (mod_modEq _).symm
      exact h2.trans h1

theorem hill_decrypt_pair (M : Matrix2) (dInv : Int)
    (hd : Int.ModEq 26 (matrixDeterminant2x2 M * dInv) 1) (x1 x2 : Int)
    (hx1 : 0 ≤ x1) (hx1' : x1 < 26) (hx2 : 0 ≤ x2) (hx2' : x2 < 26) :
    mod (mod (M.m11 * dInv) 26 * mod (M.m00 * x1 + M.m01 * x2) 26
      + mod (-M.m01 * dInv) 26 * mod (M.m10 * x1 + M.m11 * x2) 26) 26 = x1 ∧
    mod (mod (-M.m10 * dInv) 26 * mod (M.m00 * x1 + M.m01 * x2) 26
      + mod (M.m00 * dInv) 26 * mod (M.m10 * x1 + M.m11 * x2) 26) 26 = x2 := by
  constructor
  · have hcong : Int.ModEq 26
        (mod (M.m11 * dInv) 26 * mod (M.m00 * x1 + M.m01 * x2) 26
          + mod (-M.m01 * dInv) 26 * mod (M.m10 * x1 + M.m11 * x2) 26)
        (matrixDeterminant2x2 M * dInv * x1) := by
      have h1 := (mod_modEq (M.m11 * dInv)).mul (mod_modEq (M.m00 * x1 + M.m01 * x2))
      have h2 := (mod_modEq (-M.m01 * dInv)).mul (mod_modEq (M.m10 * x1 + M.m11 * x2))
      have h3 := h1.add h2
      have heq : M.m11 * dInv * (M.m00 * x1 + M.m01 * x2)
          + -M.m01 * dInv * (M.m10 * x1 + M.m11 * x2)
          = matrixDeterminant2x2 M * dInv * x1 := by
        unfold matrixDeterminant2x2
        ring
      rw [heq] at h3
      exact h3
    have hfin : Int.ModEq 26 (matrixDeterminant2x2 M * dInv * x1) x1 := by
      have := hd.mul_right x1
      simpa using this
    have hall := hcong.trans hfin
    have : mod (mod (M.m11 * dInv) 26 * mod (M.m00 * x1 + M.m01 * x2) 26
        + mod (-M.m01 * dInv) 26 * mod (M.m10 * x1 + M.m11 * x2) 26) 26 = x1 % 26 := by
      rw [mod26_eq_emod]
      exact hall
    rw [this, Int.emod_eq_of_lt hx1 hx1']
  · have hcong : Int.ModEq 26
        (mod (-M.m10 * dInv) 26 * mod (M.m00 * x1 + M.m01 * x2) 26
          + mod (M.m00 * dInv) 26 * mod (M.m10 * x1 + M.m11 * x2) 26)
        (matrixDeterminant2x2 M * dInv * x2) := by
      have h1 := (mod_modEq (-M.m10 * dInv)).mul (mod_modEq (M.m00 * x1 + M.m01 * x2))
      have h2 := (mod_modEq (M.m00 * dInv)).mul (mod_modEq (M.m10 * x1 + M.m11 * x2))
      have h3 := h1.add h2
      have heq : -M.m10 * dInv * (M.m00 * x1 + M.m01 * x2)
          + M.m00 * dInv * (M.m10 * x1 + M.m11 * x2)
          = matrixDeterminant2x2 M * dInv * x2 := by
        unfold matrixDeterminant2x2
        ring
      rw [heq] at h3
      exact h3
    have hfin : Int.ModEq 26 (matrixDeterminant2x2 M * dInv * x2) x2 := by
      have := hd.mul_right x2
      simpa using this
    have hall := hcong.trans hfin
    have : mod (mod (-M.m10 * dInv) 26 * mod (M.m00 * x1 + M.m01 * x2) 26
        + mod (M.m00 * dInv) 26 * mod (M.m10 * x1 + M.m11 * x2) 26) 26 = x2 % 26 := by
      rw [mod26_eq_emod]
      exact hall
    rw [this, Int.emod_eq_of_lt hx2 hx2']

end HybridCrypto
namespace HybridCrypto

theorem charToNum_numToChar (v : Int) : charToNum (numToChar v) = mod v 26 := by
  obtain ⟨k, hk, hform, hval⟩ := numToChar_form v
  rw [hform, (az_charToNum k hk).1, hval]

/-- An A-Z character viewed through `charToNum` is its alphabet index. -/
theorem az_bounds {c : Char} (h : ∃ k, k < 26 ∧ c = Char.ofNat (65 + k)) :
    0 ≤ charToNum c ∧ charToNum c < 26 ∧ numToChar (charToNum c) = c := by
  obtain ⟨k, hk, rfl⟩ := h
  rw [(az_charToNum k hk).1]
  refine ⟨by omega, by omega, (az_charToNum k hk).2.1⟩

theorem hillPairs_two (m : Matrix2) (c1 c2 : Char) (rest : List Char) :
    hillPairs m (c1 :: c2 :: rest) =
      numToChar (mod (m.m00 * charToNum c1 + m.m01 * charToNum c2) 26)
        :: numToChar (mod (m.m10 * charToNum c1 + m.m11 * charToNum c2) 26)
        :: hillPairs m rest := rfl

theorem hillPairs_length : ∀ (n : Nat) (s : List Char), s.length = n →
    ∀ m : Matrix2, s.length % 2 = 0 → (hillPairs m s).length = s.length := by
  intro n
  induction n using Nat.strong_induction_on with
  | _ n ih =>
      intro s hn m heven
      match s with
      | [] => rfl
      | [c] => simp at heven
      | c1 :: c2 :: rest =>
          rw [hillPairs_two]
          simp only [List.length_cons] at hn heven ⊢
          rw [ih rest.length (by omega) rest rfl m (by omega)]

theorem hillPairs_form : ∀ (n : Nat) (s : List Char), s.length = n →
    ∀ m : Matrix2, ∀ c ∈ hillPairs m s, ∃ k, k < 26 ∧ c = Char.ofNat (65 + k) := by
  intro n
  induction n using Nat.strong_induction_on with
  | _ n ih =>
      intro s hn m c hc
      match s with
      | [] => cases hc
      | [d] => cases hc
      | c1 :: c2 :: rest =>
          rw [hillPairs_two] at hc
          simp only [List.mem_cons] at hc
          rcases hc with rfl | rfl | hc
          · obtain ⟨k, hk, hform, _⟩ := numToChar_form _
            exact ⟨k, hk, hform⟩
          · obtain ⟨k, hk, hform, _⟩ := numToChar_form _
            exact ⟨k, hk, hform⟩
          · simp only [List.length_cons] at hn
            exact ih rest.length (by omega) rest rfl m c hc

theorem hillPairs_inverse : ∀ (n : Nat) (s : List Char), s.length = n →
    ∀ (M inv : Matrix2), matrixInverse2x2 M = .ok inv →
    (∀ c ∈ s, ∃ k, k < 26 ∧ c = Char.ofNat (65 + k)) → s.length % 2 = 0 →
    hillPairs inv (hillPairs M s) = s := by
  intro n
  induction n using Nat.strong_induction_on with
  | _ n ih =>
      intro s hn M inv hinv hform heven
      match s with
      | [] => rfl
      | [c] => simp at heven
      | c1 :: c2 :: rest =>
          obtain ⟨dInv, hdm, hspec⟩ := matrixInverse2x2_spec hinv
          obtain ⟨hx1a, hx1b, hx1c⟩ := az_bounds (hform c1 (by simp))
          obtain ⟨hx2a, hx2b, hx2c⟩ := az_bounds (hform c2 (by simp))
          rw [hillPairs_two, hillPairs_two]
          rw [charToNum_numToChar, charToNum_numToChar, mod_idem, mod_idem]
          obtain ⟨hp1, hp2⟩ := hill_decrypt_pair M dInv hdm (charToNum c1) (charToNum c2)
            hx1a hx1b hx2a hx2b
          rw [hspec]
          show numToChar (mod (mod (M.m11 * dInv) 26 * mod (M.m00 * charToNum c1 + M.m01 * charToNum c2) 26
              + mod (-M.m01 * dInv) 26 * mod (M.m10 * charToNum c1 + M.m11 * charToNum c2) 26) 26)
            :: numToChar (mod (mod (-M.m10 * dInv) 26 * mod (M.m00 * charToNum c1 + M.m01 * charToNum c2) 26
              + mod (M.m00 * dInv) 26 * mod (M.m10 * charToNum c1 + M.m11 * charToNum c2) 26) 26)
            :: hillPairs ⟨mod (M.m11 * dInv) 26, mod (-M.m01 * dInv) 26,
                 mod (-M.m10 * dInv) 26, mod (M.m00 * dInv) 26⟩ (hillPairs M rest)
            = c1 :: c2 :: rest
          rw [hp1, hp2, hx1c, hx2c]
          simp only [List.length_cons] at hn heven
          rw [← hspec, ih rest.length (by omega) rest rfl M inv hinv
            (fun c hc => hform c (by simp [hc])) (by omega)]

end HybridCrypto
namespace HybridCrypto

theorem charXor_isBit (a b : Char) : isBit (charXor a b) := by
  unfold charXor charOfBit
  split <;> simp [isBit]

theorem getD_isBit (l : List Char) (i : Nat) (h : ∀ c ∈ l, isBit c) :
    isBit (l.getD i '0') := by
  by_cases hi : i < l.length
  · rw [List.getD_eq_getElem l '0' hi]
    exact h _ (List.getElem_mem hi)
  · rw [List.getD_eq_getElem?_getD, List.getElem?_eq_none (by omega)]
    exact .inl rfl

theorem xorStrings_isBit (a b : List Char) : ∀ c ∈ xorStrings a b, isBit c := by
  intro c hc
  unfold xorStrings at hc
  obtain ⟨i, _, rfl⟩ := List.mem_map.mp hc
  exact charXor_isBit _ _

theorem permute_length (x : List Char) (t : List Nat) :
    (permute x t).length = t.length := by
  unfold permute
  rw [List.length_map]

theorem permute_isBit (x : List Char) (t : List Nat) (h : ∀ c ∈ x, isBit c) :
    ∀ c ∈ permute x t, isBit c := by
  intro c hc
  unfold permute at hc
  obtain ⟨pos, _, rfl⟩ := List.mem_map.mp hc
  exact getD_isBit x (pos - 1) h

theorem encryptBlock_ok (b k1 k2 : List Char) (hb : b.length = 8)
    (hbits : ∀ c ∈ b, isBit c) :
    ∃ e, encryptBlock b k1 k2 = .ok e ∧ e.length = 8 ∧ (∀ c ∈ e, isBit c) ∧
      decryptBlock e k1 k2 = .ok b := by
  obtain ⟨c0, c1, c2, c3, c4, c5, c6, c7, rfl⟩ := length_eq_eight_dest hb
  refine ⟨_, encryptBlock_eight c0 c1 c2 c3 c4 c5 c6 c7 k1 k2, ?_, ?_, ?_⟩
  · rw [permute_length]
    rfl
  · apply permute_isBit
    intro c hc
    rcases List.mem_append.mp hc with h | h
    · exact xorStrings_isBit _ _ c h
    · exact xorStrings_isBit _ _ c h
  · have h := involution_core c0 c1 c2 c3 c4 c5 c6 c7
      (hbits c0 (by simp)) (hbits c1 (by simp)) (hbits c2 (by simp))
      (hbits c3 (by simp)) (hbits c4 (by simp)) (hbits c5 (by simp))
      (hbits c6 (by simp)) (hbits c7 (by simp)) k1 k2
    rw [encryptBlock_eight] at h
    exact h

theorem blocks_mapM (blocks : List (List Char)) (k1 k2 : List Char)
    (h : ∀ b ∈ blocks, b.length = 8 ∧ ∀ c ∈ b, isBit c) :
    ∃ outs, blocks.mapM (fun b => encryptBlock b k1 k2) = .ok outs ∧
      outs.length = blocks.length ∧
      (∀ o ∈ outs, o.length = 8 ∧ ∀ c ∈ o, isBit c) ∧
      outs.mapM (fun b => decryptBlock b k1 k2) = .ok blocks := by
  induction blocks with
  | nil => exact ⟨[], rfl, rfl, by simp, rfl⟩
  | cons b bs ih =>
      obtain ⟨hb8, hbbits⟩ := h b (by simp)
      obtain ⟨e, he, he8, hebits, hdec⟩ := encryptBlock_ok b k1 k2 hb8 hbbits
      obtain ⟨outs, houts, hlen, hobits, hdecs⟩ := ih (fun x hx => h x (by simp [hx]))
      refine ⟨e :: outs, ?_, by simp [hlen], ?_, ?_⟩
      · rw [List.mapM_cons, he, houts]
        rfl
      · intro o ho
        rcases List.mem_cons.mp ho with rfl | ho
        · exact ⟨he8, hebits⟩
        · exact hobits o ho
      · rw [List.mapM_cons, hdec, hdecs]
        rfl

theorem chunk8PadAux_congr : ∀ (f1 f2 : Nat) (l : List Char),
    l.length ≤ f1 → l.length ≤ f2 → chunk8PadAux f1 l = chunk8PadAux f2 l := by
  intro f1
  induction f1 with
  | zero =>
      intro f2 l h1 _
      have : l = [] := List.length_eq_zero.mp (Nat.le_zero.mp h1)
      subst this
      cases f2 <;> rfl
  | succ f ih =>
      intro f2 l h1 h2
      cases l with
      | nil => cases f2 <;> rfl
      | cons c cs =>
          cases f2 with
          | zero => simp at h2
          | succ f2' =>
              show padEnd 8 '0' ((c :: cs).take 8) :: chunk8PadAux f ((c :: cs).drop 8)
                  = padEnd 8 '0' ((c :: cs).take 8) :: chunk8PadAux f2' ((c :: cs).drop 8)
              simp only [List.length_cons] at h1 h2
              have hd : ((c :: cs).drop 8).length ≤ f := by
                simp only [List.length_drop, List.length_cons]
                omega
              have hd2 : ((c :: cs).drop 8).length ≤ f2' := by
                simp only [List.length_drop, List.length_cons]
                omega
              rw [ih f2' _ hd hd2]

theorem chunk8Pad_cons (l : List Char) (h : l ≠ []) :
    chunk8Pad l = padEnd 8 '0' (l.take 8) :: chunk8Pad (l.drop 8) := by
  cases l with
  | nil => exact absurd rfl h
  | cons c cs =>
      show chunk8PadAux (cs.length + 1) (c :: cs) = _
      show padEnd 8 '0' ((c :: cs).take 8) :: chunk8PadAux cs.length ((c :: cs).drop 8) = _
      rw [chunk8PadAux_congr cs.length ((c :: cs).drop 8).length ((c :: cs).drop 8)
        (by simp only [List.length_drop, List.length_cons]; omega) (Nat.le_refl _)]
      rfl

theorem chunk8Pad_append_block (b l : List Char) (hb : b.length = 8) :
    chunk8Pad (b ++ l) = b :: chunk8Pad l := by
  have hne : b ++ l ≠ [] := by
    intro h
    have := congrArg List.length h
    simp [hb] at this
  rw [chunk8Pad_cons _ hne]
  congr 1
  · rw [List.take_append_of_le_length (by omega), ← hb, List.take_length]
    unfold padEnd
    rw [hb]
    simp
  · congr 1
    rw [List.drop_append_of_le_length (by omega), ← hb, List.drop_length, List.nil_append]

theorem chunk8Pad_flatten : ∀ blocks : List (List Char),
    (∀ b ∈ blocks, b.length = 8) → chunk8Pad blocks.flatten = blocks := by
  intro blocks
  induction blocks with
  | nil => intro _; rfl
  | cons b bs ih =>
      intro h
      rw [List.flatten_cons, chunk8Pad_append_block b bs.flatten (h b (by simp))]
      rw [ih (fun x hx => h x (by simp [hx]))]

theorem textToBinary_cons (c : Char) (s : List Char) :
    textToBinary (c :: s) = charToBits c ++ textToBinary s := rfl

theorem textToBinary_length (s : List Char)
    (h : ∀ c ∈ s, (charToBits c).length = 8) :
    (textToBinary s).length = 8 * s.length := by
  induction s with
  | nil => rfl
  | cons c cs ih =>
      rw [textToBinary_cons, List.length_append, h c (by simp),
        ih (fun x hx => h x (by simp [hx]))]
      simp only [List.length_cons]
      ring

theorem binaryToText_textToBinary (s : List Char)
    (h : ∀ c ∈ s, (charToBits c).length = 8 ∧ Char.ofNat (parseBin (charToBits c)) = c) :
    binaryToText (textToBinary s) = s := by
  unfold binaryToText textToBinary
  rw [chunk8_flatten (s.map charToBits)
    (by intro b hb; obtain ⟨c, hc, rfl⟩ := List.mem_map.mp hb; exact (h c hc).1)]
  rw [List.map_map]
  have : ∀ t : List Char, (∀ c ∈ t, Char.ofNat (parseBin (charToBits c)) = c) →
      t.map ((fun chunk => Char.ofNat (parseBin chunk)) ∘ charToBits) = t := by
    intro t ht
    induction t with
    | nil => rfl
    | cons c cs ih =>
        simp only [List.map_cons, Function.comp]
        rw [ht c (by simp), ih (fun x hx => ht x (by simp [hx]))]
  exact this s (fun c hc => (h c hc).2)

set_option maxRecDepth 2048 in
theorem az_charToBits : ∀ k : Nat, k < 26 →
    (charToBits (Char.ofNat (65 + k))).length = 8 ∧
    (∀ c ∈ charToBits (Char.ofNat (65 + k)), isBit c) ∧
    Char.ofNat (parseBin (charToBits (Char.ofNat (65 + k)))) = Char.ofNat (65 + k) := by
  decide

theorem bit_charToBits :
    charToBits '0' = str "00110000" ∧ charToBits '1' = str "00110001" ∧
    (charToBits '0').length = 8 ∧ (charToBits '1').length = 8 ∧
    Char.ofNat (parseBin (charToBits '0')) = '0' ∧
    Char.ofNat (parseBin (charToBits '1')) = '1' := by decide

end HybridCrypto
namespace HybridCrypto

theorem charOfBit_bitOfChar {c : Char} (h : isBit c) : charOfBit (bitOfChar c) = c := by
  rcases h with h | h <;> subst h <;> decide

set_option maxRecDepth 4096 in
theorem store_and_one : ∀ b : Nat, b < 256 → ∀ t : Nat, t < 2 →
    (((b &&& 254) ||| t) &&& 1) = t := by decide

theorem store_lsb {b : Nat} (hb : b < 256) {c : Char} (hc : isBit c) :
    charOfBit (store b c &&& 1) = c := by
  unfold store
  have ht : bitOfChar c < 2 := by rcases bitOfChar_cases c with h | h <;> omega
  rw [store_and_one b hb (bitOfChar c) ht]
  exact charOfBit_bitOfChar hc

theorem lsbStream_cons4 (x0 x1 x2 x3 : Nat) (t : List Nat) :
    lsbStream (x0 :: x1 :: x2 :: x3 :: t) =
      charOfBit (x0 &&& 1) :: charOfBit (x1 &&& 1) :: charOfBit (x2 &&& 1)
        :: lsbStream t := rfl

theorem rgbBytes_length : ∀ (n : Nat) (d : List Nat), d.length = n →
    d.length % 4 = 0 → (rgbBytes d).length = 3 * d.length / 4 := by
  intro n
  induction n using Nat.strong_induction_on with
  | _ n ih =>
      intro d hn h4
      match d with
      | [] => rfl
      | [x] => simp at h4
      | [x, y] => simp at h4
      | [x, y, z] => simp at h4
      | x0 :: x1 :: x2 :: x3 :: rest =>
          show (x0 :: x1 :: x2 :: rgbBytes rest).length = _
          simp only [List.length_cons] at hn h4 ⊢
          rw [ih rest.length (by omega) rest rfl (by omega)]
          omega

theorem embedAux_congr_mod : ∀ (d : List Nat) (bits : List Char) (ch ch' : Nat),
    ch % 4 = ch' % 4 → embedAux d bits ch = embedAux d bits ch' := by
  intro d
  induction d with
  | nil => intro bits ch ch' _; cases bits <;> rfl
  | cons b rest ih =>
      intro bits ch ch' hm
      cases bits with
      | nil => rfl
      | cons c cs =>
          unfold embedAux
          by_cases h : ch % 4 = 3
          · rw [if_pos h, if_pos (by omega), ih (c :: cs) (ch + 1) (ch' + 1) (by omega)]
          · rw [if_neg h, if_neg (by omega), ih cs (ch + 1) (ch' + 1) (by omega)]

theorem rgb_embed_stream : ∀ (n : Nat) (d : List Nat), d.length = n →
    ∀ bits : List Char, d.length % 4 = 0 → bits.length ≤ 3 * d.length / 4 →
    (∀ c ∈ bits, isBit c) → (∀ b ∈ d, b < 256) →
    lsbStream (embedAux d bits 0) = bits ++ (lsbStream d).drop bits.length := by
  intro n
  induction n using Nat.strong_induction_on with
  | _ n ih =>
      intro d hn bits h4 hcap hbits hbytes
      match d with
      | [] =>
          have : bits = [] := by
            have := List.length_eq_zero.mp (Nat.le_zero.mp (by simpa using hcap))
            exact this
          subst this
          rfl
      | [x] => simp at h4
      | [x, y] => simp at h4
      | [x, y, z] => simp at h4
      | x0 :: x1 :: x2 :: x3 :: rest =>
          have hx0 : x0 < 256 := hbytes x0 (by simp)
          have hx1 : x1 < 256 := hbytes x1 (by simp)
          have hx2 : x2 < 256 := hbytes x2 (by simp)
          simp only [List.length_cons] at hn h4 hcap
          cases bits with
          | nil =>
              show lsbStream (x0 :: x1 :: x2 :: x3 :: rest)
                  = [] ++ (lsbStream (x0 :: x1 :: x2 :: x3 :: rest)).drop 0
              rw [List.nil_append, List.drop_zero]
          | cons c0 bs0 =>
            have hc0 : isBit c0 := hbits c0 (by simp)
            cases bs0 with
            | nil =>
                show lsbStream (store x0 c0 :: x1 :: x2 :: x3 :: rest) = _
                rw [lsbStream_cons4, lsbStream_cons4, store_lsb hx0 hc0]
                try rfl
            | cons c1 bs1 =>
              have hc1 : isBit c1 := hbits c1 (by simp)
              cases bs1 with
              | nil =>
                  show lsbStream (store x0 c0 :: store x1 c1 :: x2 :: x3 :: rest) = _
                  rw [lsbStream_cons4, lsbStream_cons4, store_lsb hx0 hc0, store_lsb hx1 hc1]
                  try rfl
              | cons c2 bs2 =>
                have hc2 : isBit c2 := hbits c2 (by simp)
                cases bs2 with
                | nil =>
                    show lsbStream (store x0 c0 :: store x1 c1 :: store x2 c2 :: x3 :: rest) = _
                    rw [lsbStream_cons4, lsbStream_cons4, store_lsb hx0 hc0,
                      store_lsb hx1 hc1, store_lsb hx2 hc2]
                    try rfl
                | cons c3 bs3 =>
                    show lsbStream (store x0 c0 :: store x1 c1 :: store x2 c2 :: x3
                        :: embedAux rest (c3 :: bs3) 4) = _
                    rw [lsbStream_cons4, store_lsb hx0 hc0, store_lsb hx1 hc1,
                      store_lsb hx2 hc2,
                      embedAux_congr_mod rest (c3 :: bs3) 4 0 (by omega)]
                    rw [ih rest.length (by omega) rest rfl (c3 :: bs3) (by omega)
                      (by simp only [List.length_cons] at hcap ⊢; omega)
                      (fun c hc => hbits c (by simp [List.mem_cons] at hc ⊢; tauto))
                      (fun b hb => hbytes b (by simp [List.mem_cons] at hb ⊢; tauto))]
                    rw [lsbStream_cons4]
                    simp only [List.length_cons, List.cons_append]
                    rw [List.drop_succ_cons, List.drop_succ_cons, List.drop_succ_cons]

end HybridCrypto
namespace HybridCrypto

theorem getD_append_left {a b : List Char} {i : Nat} (h : i < a.length) (d : Char) :
    (a ++ b).getD i d = a.getD i d := by
  rw [List.getD_eq_getElem?_getD, List.getD_eq_getElem?_getD, List.getElem?_append_left h]

theorem getD_append_right {a b : List Char} {i : Nat} (h : a.length ≤ i) (d : Char) :
    (a ++ b).getD i d = b.getD (i - a.length) d := by
  rw [List.getD_eq_getElem?_getD, List.getD_eq_getElem?_getD, List.getElem?_append_right h]

theorem getD_drop (l : List Char) (n i : Nat) (d : Char) :
    (l.drop n).getD i d = l.getD (n + i) d := by
  rw [List.getD_eq_getElem?_getD, List.getD_eq_getElem?_getD, List.getElem?_drop]

theorem getD_take (l : List Char) {n i : Nat} (h : i < n) (d : Char) :
    (l.take n).getD i d = l.getD i d := by
  rw [List.getD_eq_getElem?_getD, List.getD_eq_getElem?_getD, List.getElem?_take_of_lt h]

theorem delim_getD_one : ∀ o : Nat, o < 15 → delimiterBits.getD o '0' = '1' := by decide

theorem delim_getD_last : delimiterBits.getD 15 '0' = '0' := rfl

theorem textToBinary_bits_zero : ∀ (msg : List Char), (∀ c ∈ msg, isBit c) →
    ∀ i, i < (textToBinary msg).length → i % 8 < 2 →
    (textToBinary msg).getD i '0' = '0' := by
  intro msg
  induction msg with
  | nil => intro _ i hi _; simp [textToBinary] at hi
  | cons c cs ih =>
      intro hbits i hi hm
      rw [textToBinary_cons] at hi ⊢
      have hc : isBit c := hbits c (by simp)
      have hlen : (charToBits c).length = 8 := by
        rcases hc with h | h <;> subst h
        · exact bit_charToBits.2.2.1
        · exact bit_charToBits.2.2.2.1
      by_cases hsmall : i < 8
      · rw [getD_append_left (by omega) '0']
        have hi2 : i < 2 := by omega
        rcases hc with h | h <;> subst h
        · rw [bit_charToBits.1]
          interval_cases i <;> rfl
        · rw [bit_charToBits.2.1]
          interval_cases i <;> rfl
      · rw [getD_append_right (by omega) '0', hlen]
        rw [List.length_append, hlen] at hi
        exact ih (fun x hx => hbits x (by simp [hx])) (i - 8) (by omega) (by omega)

theorem no_early_match (payload tail : List Char)
    (hz : ∀ i, i < payload.length → i % 8 < 2 → payload.getD i '0' = '0')
    (j : Nat) (hj16 : 16 ≤ j) (hjm : j < payload.length + 16) :
    ((payload ++ (delimiterBits ++ tail)).take j).drop (j - 16) ≠ delimiterBits := by
  intro heq
  by_cases hA : j ≤ payload.length
  · set p := j - 16 with hp
    set u := p + (8 - p % 8) % 8 with hu
    have hu8 : u % 8 = 0 := by omega
    have hur : p ≤ u ∧ u < p + 8 := by omega
    set o := u - p with ho
    have ho8 : o < 8 := by omega
    have h1 : (((payload ++ (delimiterBits ++ tail)).take j).drop (j - 16)).getD o '0'
        = (payload ++ (delimiterBits ++ tail)).getD u '0' := by
      rw [getD_drop, getD_take _ (by omega) '0']
      congr 1
      omega
    have h2 : (payload ++ (delimiterBits ++ tail)).getD u '0' = payload.getD u '0' :=
      getD_append_left (by omega) '0'
    have h3 : payload.getD u '0' = '0' := hz u (by omega) (by omega)
    have h4 : delimiterBits.getD o '0' = '1' := delim_getD_one o (by omega)
    have hchain : ('1' : Char) = '0' := by
      calc ('1' : Char) = delimiterBits.getD o '0' := h4.symm
        _ = (((payload ++ (delimiterBits ++ tail)).take j).drop (j - 16)).getD o '0' := by
              rw [heq]
        _ = (payload ++ (delimiterBits ++ tail)).getD u '0' := h1
        _ = payload.getD u '0' := h2
        _ = '0' := h3
    exact absurd hchain (by decide)
  · have h1 : (((payload ++ (delimiterBits ++ tail)).take j).drop (j - 16)).getD 15 '0'
        = (payload ++ (delimiterBits ++ tail)).getD (j - 1) '0' := by
      rw [getD_drop, getD_take _ (by omega) '0']
      congr 1
      omega
    have h2 : (payload ++ (delimiterBits ++ tail)).getD (j - 1) '0'
        = (delimiterBits ++ tail).getD (j - 1 - payload.length) '0' :=
      getD_append_right (by omega) '0'
    have h3 : (delimiterBits ++ tail).getD (j - 1 - payload.length) '0'
        = delimiterBits.getD (j - 1 - payload.length) '0' := by
      apply getD_append_left
      show j - 1 - payload.length < delimiterBits.length
      have : delimiterBits.length = 16 := rfl
      omega
    have h4 : delimiterBits.getD (j - 1 - payload.length) '0' = '1' :=
      delim_getD_one _ (by omega)
    have hchain : ('0' : Char) = '1' := by
      calc ('0' : Char) = delimiterBits.getD 15 '0' := rfl
        _ = (((payload ++ (delimiterBits ++ tail)).take j).drop (j - 16)).getD 15 '0' := by
              rw [heq]
        _ = (payload ++ (delimiterBits ++ tail)).getD (j - 1) '0' := h1
        _ = (delimiterBits ++ tail).getD (j - 1 - payload.length) '0' := h2
        _ = delimiterBits.getD (j - 1 - payload.length) '0' := h3
        _ = '1' := h4
    exact absurd hchain (by decide)

end HybridCrypto
namespace HybridCrypto

theorem exceptBind_ok {α β : Type} (a : α) (f : α → Except String β) :
    (Except.ok a : Except String α) >>= f = f a := rfl

theorem flatten_length_eight (blocks : List (List Char))
    (h : ∀ b ∈ blocks, b.length = 8) : blocks.flatten.length = 8 * blocks.length := by
  induction blocks with
  | nil => rfl
  | cons b bs ih =>
      rw [List.flatten_cons, List.length_append, h b (by simp),
        ih (fun x hx => h x (by simp [hx]))]
      simp only [List.length_cons]
      ring

theorem delimiterBits_isBit : ∀ c ∈ delimiterBits, isBit c := by decide

theorem textToBinary_isBit (msg : List Char) (h : ∀ c ∈ msg, isBit c) :
    ∀ c ∈ textToBinary msg, isBit c := by
  intro c hc
  unfold textToBinary at hc
  obtain ⟨b, hb, hcb⟩ := List.mem_flatten.mp hc
  obtain ⟨x, hx, rfl⟩ := List.mem_map.mp hb
  rcases h x hx with hx0 | hx0 <;> subst hx0
  · exact (by decide : ∀ d ∈ charToBits '0', isBit d) c hcb
  · exact (by decide : ∀ d ∈ charToBits '1', isBit d) c hcb

theorem textToBinary_len_bits (msg : List Char) (h : ∀ c ∈ msg, isBit c) :
    (textToBinary msg).length = 8 * msg.length := by
  apply textToBinary_length
  intro c hc
  rcases h c hc with h0 | h0 <;> subst h0
  · exact bit_charToBits.2.2.1
  · exact bit_charToBits.2.2.2.1

/-- Extracting from a buffer into which a binary-character payload was just
embedded recovers exactly the payload text. -/
theorem extract_embedded (carrier : List Nat) (msg : List Char)
    (h4 : carrier.length % 4 = 0) (hbytes : ∀ b ∈ carrier, b < 256)
    (hbits : ∀ c ∈ msg, isBit c)
    (hcap : (textToBinary msg).length + 16 ≤ 3 * carrier.length / 4) :
    extractMessage (embedAux carrier (textToBinary msg ++ delimiterBits) 0) = .ok msg := by
  have hfmbits : ∀ c ∈ textToBinary msg ++ delimiterBits, isBit c := by
    intro c hc
    rcases List.mem_append.mp hc with h | h
    · exact textToBinary_isBit msg hbits c h
    · exact delimiterBits_isBit c h
  have hfmlen : (textToBinary msg ++ delimiterBits).length = (textToBinary msg).length + 16 := by
    simp [delimiterBits]
  have hstream : lsbStream (embedAux carrier (textToBinary msg ++ delimiterBits) 0)
      = (textToBinary msg ++ delimiterBits)
        ++ (lsbStream carrier).drop (textToBinary msg ++ delimiterBits).length :=
    rgb_embed_stream carrier.length carrier rfl _ h4 (by omega) hfmbits hbytes
  have hstegolen : (embedAux carrier (textToBinary msg ++ delimiterBits) 0).length
      = carrier.length := embedAux_length carrier _ 0
  have hrgblen : (rgbBytes (embedAux carrier (textToBinary msg ++ delimiterBits) 0)).length
      = 3 * carrier.length / 4 := by
    rw [rgbBytes_length _ _ rfl (by omega), hstegolen]
  have hstream' : (rgbBytes (embedAux carrier (textToBinary msg ++ delimiterBits) 0)).map
        (fun b => charOfBit (b &&& 1))
      = (textToBinary msg ++ delimiterBits)
        ++ (lsbStream carrier).drop (textToBinary msg ++ delimiterBits).length := hstream
  unfold extractMessage
  rw [extractScan_ok (rgbBytes (embedAux carrier (textToBinary msg ++ delimiterBits) 0)) []
    ((textToBinary msg).length + 16) (by omega) (by omega) (by simp)
    ?hmatch ?hnomatch]
  case hmatch =>
    rw [List.nil_append, List.map_take, hstream']
    rw [List.take_append_of_le_length (by omega)]
    rw [show List.length ([] : List Char) + ((textToBinary msg).length + 16) - 16
        = (textToBinary msg).length by simp]
    rw [← hfmlen, List.take_length]
    exact List.drop_left _ _
  case hnomatch =>
    intro j hj1 hj2 hj16
    rw [List.nil_append, List.map_take, hstream']
    rw [show List.length ([] : List Char) + j - 16 = j - 16 by simp]
    rw [List.append_assoc]
    exact no_early_match (textToBinary msg) _
      (fun i hi him => textToBinary_bits_zero msg hbits i hi him)
      j (by simpa using hj16) (by omega)
  · rw [List.nil_append, List.map_take, hstream']
    rw [List.take_append_of_le_length (by omega)]
    rw [show List.length ([] : List Char) + ((textToBinary msg).length + 16) - 16
        = (textToBinary msg).length by simp]
    rw [← hfmlen, List.take_length, List.take_left]
    show Except.ok (binaryToText (textToBinary msg)) = Except.ok msg
    rw [binaryToText_textToBinary msg ?hchars]
    case hchars =>
      intro c hc
      rcases hbits c hc with h0 | h0 <;> subst h0
      · exact ⟨bit_charToBits.2.2.1, bit_charToBits.2.2.2.2.1⟩
      · exact ⟨bit_charToBits.2.2.2.1, bit_charToBits.2.2.2.2.2⟩

end HybridCrypto
namespace HybridCrypto

theorem preprocessText_cases (p : List Char) (hl : ∀ c ∈ p, isLetter c = true) :
    preprocessText p = p.map Char.toUpper ∧ (p.map Char.toUpper).length % 2 = 0 ∨
    preprocessText p = p.map Char.toUpper ++ ['X'] ∧ (p.map Char.toUpper).length % 2 = 1 := by
  have hfilter : p.filter isLetter = p := List.filter_eq_self.mpr hl
  by_cases h : (p.map Char.toUpper).length % 2 = 0
  · left
    refine ⟨?_, h⟩
    simp only [preprocessText, hfilter]
    rw [if_neg (by omega)]
  · right
    refine ⟨?_, by omega⟩
    simp only [preprocessText, hfilter]
    rw [if_pos (by omega)]

theorem preprocessText_form (p : List Char) (hl : ∀ c ∈ p, isLetter c = true) :
    (∀ c ∈ preprocessText p, ∃ k, k < 26 ∧ c = Char.ofNat (65 + k)) ∧
    (preprocessText p).length % 2 = 0 := by
  have hmap : ∀ c ∈ p.map Char.toUpper, ∃ k, k < 26 ∧ c = Char.ofNat (65 + k) := by
    intro c hc
    obtain ⟨x, hx, rfl⟩ := List.mem_map.mp hc
    exact letter_toUpper (hl x hx)
  rcases preprocessText_cases p hl with ⟨hproc, hpar⟩ | ⟨hproc, hpar⟩
  · rw [hproc]
    exact ⟨hmap, hpar⟩
  · rw [hproc]
    constructor
    · intro c hc
      rcases List.mem_append.mp hc with h | h
      · exact hmap c h
      · have hx : c = 'X' := by simpa using h
        subst hx
        exact ⟨23, by omega, by decide⟩
    · simp only [List.length_append, List.length_cons, List.length_nil]
      omega

theorem hillEncrypt_ok (p : List Char) (M : Matrix2) (hv : validateMatrix2x2 M = true) :
    hillEncrypt p M = .ok ⟨preprocessText p, (p.filter isLetter).map Char.toUpper,
      ((p.filter isLetter).map Char.toUpper).length, hillPairs M (preprocessText p)⟩ := by
  unfold hillEncrypt
  rw [if_pos hv]

theorem generateSubKeys_ok (key : List Char) (hk : key.length = 10) :
    ∃ ks, generateSubKeys key = .ok ks := by
  unfold generateSubKeys
  rw [if_neg (by omega : ¬ key.length ≠ 10)]
  exact ⟨_, rfl⟩

theorem sdesEncrypt_ok (text key : List Char) (ks : List Char × List Char)
    (hks : generateSubKeys key = .ok ks)
    (hform : ∀ c ∈ text, ∃ k, k < 26 ∧ c = Char.ofNat (65 + k)) :
    ∃ outs, sdesEncrypt text key = .ok ⟨text.map charToBits, outs, key, ks.1, ks.2⟩ ∧
      outs.length = text.length ∧ (∀ o ∈ outs, o.length = 8 ∧ ∀ c ∈ o, isBit c) ∧
      outs.mapM (fun b => decryptBlock b ks.1 ks.2) = .ok (text.map charToBits) := by
  have hblocks : stringTo8BitBlocks text = text.map charToBits := by
    unfold stringTo8BitBlocks textToBinary
    refine chunk8Pad_flatten _ ?_
    intro b hb
    obtain ⟨c, hc, rfl⟩ := List.mem_map.mp hb
    obtain ⟨k, hk, rfl⟩ := hform c hc
    exact (az_charToBits k hk).1
  have hprops : ∀ b ∈ text.map charToBits, b.length = 8 ∧ ∀ c ∈ b, isBit c := by
    intro b hb
    obtain ⟨c, hc, rfl⟩ := List.mem_map.mp hb
    obtain ⟨k, hk, rfl⟩ := hform c hc
    exact ⟨(az_charToBits k hk).1, (az_charToBits k hk).2.1⟩
  obtain ⟨outs, houts, hlen, hobits, hdecs⟩ :=
    blocks_mapM (text.map charToBits) ks.1 ks.2 hprops
  refine ⟨outs, ?_, by rw [hlen, List.length_map], hobits, hdecs⟩
  unfold sdesEncrypt
  rw [hblocks]
  simp only [hks, exceptBind_ok, houts]

theorem sdesDecrypt_ok (blocks : List (List Char)) (key : List Char)
    (ks : List Char × List Char) (hks : generateSubKeys key = .ok ks)
    (decs : List (List Char))
    (hdecs : blocks.mapM (fun b => decryptBlock b ks.1 ks.2) = .ok decs) :
    sdesDecrypt blocks key = .ok (blocksToString decs) := by
  unfold sdesDecrypt
  simp only [hks, exceptBind_ok, hdecs]

theorem hideMessage_ok (data : List Nat) (message : List Char)
    (hcap : (textToBinary message ++ delimiterBits).length ≤ 3 * data.length / 4) :
    hideMessage data message = .ok ⟨embedAux data (textToBinary message ++ delimiterBits) 0,
      3 * data.length / 4, (textToBinary message ++ delimiterBits).length⟩ := by
  simp only [hideMessage]
  split
  · omega
  · rfl

theorem hillDecrypt_full (s : List Char) (M inv : Matrix2) (n : Nat)
    (hv : validateMatrix2x2 M = true) (hinv : matrixInverse2x2 M = .ok inv)
    (hn : ¬ (0 < n ∧ n < (hillPairs inv s).length)) :
    hillDecrypt s M (some n) = .ok (hillPairs inv s) := by
  unfold hillDecrypt
  rw [if_pos hv, hinv]
  show (if 0 < n ∧ n < (hillPairs inv s).length then Except.ok ((hillPairs inv s).take n)
    else Except.ok (hillPairs inv s)) = _
  rw [if_neg hn]

theorem hillDecrypt_trunc (s : List Char) (M inv : Matrix2) (n : Nat)
    (hv : validateMatrix2x2 M = true) (hinv : matrixInverse2x2 M = .ok inv)
    (hn : 0 < n ∧ n < (hillPairs inv s).length) :
    hillDecrypt s M (some n) = .ok ((hillPairs inv s).take n) := by
  unfold hillDecrypt
  rw [if_pos hv, hinv]
  show (if 0 < n ∧ n < (hillPairs inv s).length then Except.ok ((hillPairs inv s).take n)
    else Except.ok (hillPairs inv s)) = _
  rw [if_pos hn]

end HybridCrypto
namespace HybridCrypto

set_option maxRecDepth 16384 in
/-- C1: the claim's capacity bound `8*len(plaintext)+16` is not the one the
code enforces: with it satisfied the pipeline can still fail, because
`hideInImage` re-encodes the S-DES output bit string through `textToBinary`
(8 bits per '0'/'1' character). -/
theorem C1_claim_counterexample :
    8 * (str "AB").length + 16 ≤ 3 * (List.replicate 44 (0 : Nat)).length / 4 ∧
    encryptPipeline (str "AB") ⟨3, 2, 5, 7⟩ (str "1010000010") (List.replicate 44 0)
      = .error "Image too small" := ⟨by decide, rfl⟩

/-- C1 (amended): under the capacity bound the code actually enforces —
`64 * len(preprocessed) + 16` LSB slots — the full
encrypt-embed-extract-decrypt pipeline returns the upper-cased plaintext. -/
theorem C1_roundtrip (p : List Char) (M : Matrix2) (key : List Char) (carrier : List Nat)
    (hp : p ≠ []) (hletters : ∀ c ∈ p, isLetter c = true)
    (hM : Int.gcd (mod (matrixDeterminant2x2 M) 26) 26 = 1)
    (hkey : key.length = 10)
    (hcarrier4 : carrier.length % 4 = 0) (hbytes : ∀ b ∈ carrier, b < 256)
    (hcap : 64 * (preprocessText p).length + 16 ≤ 3 * carrier.length / 4) :
    ∃ art, encryptPipeline p M key carrier = .ok art ∧
      decryptPipeline art = .ok (p.map Char.toUpper) := by
  have hv : validateMatrix2x2 M = true := (validateMatrix2x2_iff_gcd M).mpr hM
  obtain ⟨inv, hinv⟩ := inverse_of_validateMatrix2x2 hv
  obtain ⟨hform, heven⟩ := preprocessText_form p hletters
  have hET_form : ∀ c ∈ hillPairs M (preprocessText p), ∃ k, k < 26 ∧ c = Char.ofNat (65 + k) :=
    fun c hc => hillPairs_form (preprocessText p).length (preprocessText p) rfl M c hc
  have hET_len : (hillPairs M (preprocessText p)).length = (preprocessText p).length :=
    hillPairs_length _ _ rfl M heven
  obtain ⟨ks, hks⟩ := generateSubKeys_ok key hkey
  obtain ⟨outs, hsdes, houtlen, houtprop, hdecs⟩ :=
    sdesEncrypt_ok (hillPairs M (preprocessText p)) key ks hks hET_form
  have hmsgbits : ∀ c ∈ outs.flatten, isBit c := by
    intro c hc
    obtain ⟨b, hb, hcb⟩ := List.mem_flatten.mp hc
    exact (houtprop b hb).2 c hcb
  have hmsglen : outs.flatten.length = 8 * (preprocessText p).length := by
    rw [flatten_length_eight outs (fun b hb => (houtprop b hb).1), houtlen, hET_len]
  have hpayloadlen : (textToBinary outs.flatten).length = 64 * (preprocessText p).length := by
    rw [textToBinary_len_bits _ hmsgbits, hmsglen]
    ring
  have hfulllen : (textToBinary outs.flatten ++ delimiterBits).length
      = 64 * (preprocessText p).length + 16 := by
    rw [List.length_append, hpayloadlen]
    rfl
  have hhide := hideMessage_ok carrier outs.flatten (by rw [hfulllen]; exact hcap)
  have hhill := hillEncrypt_ok p M hv
  have hfl : p.filter isLetter = p := List.filter_eq_self.mpr hletters
  have hextract : extractMessage (embedAux carrier (textToBinary outs.flatten ++ delimiterBits) 0)
      = .ok outs.flatten :=
    extract_embedded carrier outs.flatten hcarrier4 hbytes hmsgbits (by rw [hpayloadlen]; omega)
  have hchunk : chunk8 outs.flatten = outs :=
    chunk8_flatten outs (fun b hb => (houtprop b hb).1)
  have hsdec : sdesDecrypt outs key
      = .ok (blocksToString ((hillPairs M (preprocessText p)).map charToBits)) :=
    sdesDecrypt_ok outs key ks hks _ hdecs
  have hb2s : blocksToString ((hillPairs M (preprocessText p)).map charToBits)
      = hillPairs M (preprocessText p) := by
    have hrt := binaryToText_textToBinary (hillPairs M (preprocessText p)) (by
      intro c hc
      obtain ⟨k, hk, rfl⟩ := hET_form c hc
      exact ⟨(az_charToBits k hk).1, (az_charToBits k hk).2.2⟩)
    exact hrt
  have hdec_inv : hillPairs inv (hillPairs M (preprocessText p)) = preprocessText p :=
    hillPairs_inverse (preprocessText p).length _ rfl M inv hinv hform heven
  have hfinal : hillDecrypt (hillPairs M (preprocessText p)) M
      (some (((p.filter isLetter).map Char.toUpper).length)) = .ok (p.map Char.toUpper) := by
    rw [hfl]
    rcases preprocessText_cases p hletters with ⟨hproc, _⟩ | ⟨hproc, _⟩
    · rw [hillDecrypt_full _ M inv _ hv hinv (by rw [hdec_inv, hproc]; omega)]
      rw [hdec_inv, hproc]
    · rw [hillDecrypt_trunc _ M inv _ hv hinv
        ⟨by rw [List.length_map]; exact List.length_pos.mpr hp,
         by rw [hdec_inv, hproc]; simp⟩]
      rw [hdec_inv, hproc, List.take_left]
  refine ⟨⟨embedAux carrier (textToBinary outs.flatten ++ delimiterBits) 0, M, key,
      ((p.filter isLetter).map Char.toUpper).length⟩, ?_, ?_⟩
  · unfold encryptPipeline
    simp only [hhill, exceptBind_ok, hsdes, hhide]
  · unfold decryptPipeline
    simp only [hextract, exceptBind_ok, hchunk, hsdec, hb2s, hfinal]

set_option maxRecDepth 16384 in
/-- C1 witness: a concrete round trip through all three layers. -/
theorem C1_roundtrip_witness :
    ∃ art, encryptPipeline (str "AB") ⟨3, 2, 5, 7⟩ (str "1010000010") (List.replicate 192 7)
        = .ok art ∧ decryptPipeline art = .ok ((str "AB").map Char.toUpper) :=
  C1_roundtrip (str "AB") ⟨3, 2, 5, 7⟩ (str "1010000010") (List.replicate 192 7)
    (by decide) (by decide) (by decide) (by decide) (by decide) (by decide) (by decide)

end HybridCrypto
